import Mathlib

/-! Request routing and IP allow-list of govanityurls.

A shallow embedding of `main.go` (`init`, `realIP`, `ipAllowed`, `handle`) together
with the parts of the Go standard library these functions call
(`strings.TrimSpace`, `strings.SplitN`, `net.ParseIP`, `net.ParseCIDR`,
`(*net.IPNet).Contains`, `net.SplitHostPort`).

Conventions of the embedding:
* a Go `string` is a Lean `String`; the library routines work on its list of code
  points (`String.data`).  Every byte the library routines look for is ASCII, so on
  well-formed UTF-8 text scanning code points and scanning bytes agree;
* a byte is a `Nat` below 256, a byte slice (`net.IP`, `net.IPMask`) is a `List Nat`,
  the `nil` slice being `[]`;
* a pointer or slice result that the caller tests against `nil`, or an `error`
  result, is an `Option`;
* a run-time panic (index out of range) is `none`.
-/

namespace Govanityurls

/-! ## package `strings` -/

/-- Go `unicode.IsSpace`: the Latin-1 spaces `\t \n \v \f \r`, space, U+0085, U+00A0,
and the other code points with the `White_Space` property. -/
def isSpace (c : Char) : Bool :=
  let n := c.toNat
  n == 0x09 || n == 0x0A || n == 0x0B || n == 0x0C || n == 0x0D || n == 0x20 ||
  n == 0x85 || n == 0xA0 || n == 0x1680 || (0x2000 ≤ n && n ≤ 0x200A) ||
  n == 0x2028 || n == 0x2029 || n == 0x202F || n == 0x205F || n == 0x3000

/-- Go `strings.TrimLeftFunc` on code points. -/
def trimLeftFunc (f : Char → Bool) (s : List Char) : List Char :=
  s.dropWhile f

/-- Go `strings.TrimRightFunc` on code points. -/
def trimRightFunc (f : Char → Bool) (s : List Char) : List Char :=
  (s.reverse.dropWhile f).reverse

/-- Go `strings.TrimSpace`: the string without its leading and trailing white space. -/
def TrimSpace (s : String) : String :=
  ⟨trimRightFunc isSpace (trimLeftFunc isSpace s.data)⟩

/-- Go `strings.TrimRight(s, cutset)`. -/
def TrimRight (s cutset : String) : String :=
  ⟨trimRightFunc (fun c => cutset.data.contains c) s.data⟩

/-- Go `strings.TrimLeft(s, cutset)`. -/
def TrimLeft (s cutset : String) : String :=
  ⟨trimLeftFunc (fun c => cutset.data.contains c) s.data⟩

/-- Go `strings.Index` on code points: the offset of the first occurrence of `sep`. -/
def Index (sep : List Char) : List Char → Option Nat
  | [] => if sep.isEmpty then some 0 else none
  | c :: rest =>
    if sep.isPrefixOf (c :: rest) then some 0
    else (Index sep rest).map (· + 1)

/-- Go `bytealg.IndexByteString`: the offset of the first `c`, `none` for `-1`. -/
def IndexByte (c : Char) : List Char → Option Nat
  | [] => none
  | x :: rest => if x = c then some 0 else (IndexByte c rest).map (· + 1)

/-- Go `bytealg.LastIndexByteString`: the offset of the last `c`, `none` for `-1`. -/
def LastIndexByte (c : Char) : List Char → Option Nat
  | [] => none
  | x :: rest =>
    match LastIndexByte c rest with
    | some i => some (i + 1)
    | none => if x = c then some 0 else none

/-- The loop of Go `strings.genSplit`: at most `n` more cuts at `sep`, the rest of the
string being the last piece. -/
def genSplitLoop (sep : List Char) : Nat → List Char → List (List Char)
  | 0, s => [s]
  | n + 1, s =>
    match Index sep s with
    | none => [s]
    | some m => s.take m :: genSplitLoop sep n (s.drop (m + sep.length))

/-- Go `strings.SplitN(s, sep, n)` for a non-empty separator and `n > 0`
(`n = 0` gives the `nil` slice). -/
def SplitN (s sep : String) (n : Nat) : List String :=
  if n = 0 then []
  else
    let n1 := if n > s.data.length + 1 then s.data.length + 1 else n
    (genSplitLoop sep.data (n1 - 1) s.data).map String.mk

/-! ## package `net/netip` -/

/-- Go `netip.Addr`: the address bytes (4 for an IPv4 address, 16 for an IPv6
address) and the IPv6 zone. -/
structure Addr where
  bytes : List Nat
  zone : String
  deriving DecidableEq, Repr

/-- The value of a decimal digit, `none` for any other character. -/
def digitVal (c : Char) : Option Nat :=
  if 48 ≤ c.toNat ∧ c.toNat ≤ 57 then some (c.toNat - 48) else none

/-- The value of a hexadecimal digit, `none` for any other character. -/
def hexVal (c : Char) : Option Nat :=
  if 48 ≤ c.toNat ∧ c.toNat ≤ 57 then some (c.toNat - 48)
  else if 97 ≤ c.toNat ∧ c.toNat ≤ 102 then some (c.toNat - 97 + 10)
  else if 65 ≤ c.toNat ∧ c.toNat ≤ 70 then some (c.toNat - 65 + 10)
  else none

/-- The loop of Go `netip.parseIPv4Fields`.  `prev` is the character before the
current one (`none` at offset 0), `val` and `digLen` the value and number of digits
of the current octet, `fields` the octets already stored (`pos = fields.length`). -/
def parseIPv4FieldsLoop (prev : Option Char) (val digLen : Nat) (fields : List Nat) :
    List Char → Option (List Nat)
  | [] => if fields.length < 3 then none else some (fields ++ [val])
  | c :: rest =>
    match digitVal c with
    | some d =>
      if digLen = 1 ∧ val = 0 then none
      else if val * 10 + d > 255 then none
      else parseIPv4FieldsLoop (some c) (val * 10 + d) (digLen + 1) fields rest
    | none =>
      if c = '.' then
        if prev = none ∨ rest = [] ∨ prev = some '.' then none
        else if fields.length = 3 then none
        else parseIPv4FieldsLoop (some c) 0 0 (fields ++ [val]) rest
      else none

/-- Go `netip.parseIPv4Fields`: the four octets of a dotted-decimal address. -/
def parseIPv4Fields (s : List Char) : Option (List Nat) :=
  parseIPv4FieldsLoop none 0 0 [] s

/-- Go `netip.parseIPv4`. -/
def parseIPv4 (s : List Char) : Option Addr :=
  (parseIPv4Fields s).map (fun f => ⟨f, ""⟩)

/-- The hexadecimal-field loop of Go `netip.parseIPv6`: reads hex digits from the
front of the string; gives the number of digits read, their value and the rest of
the string, or `none` when the field has more than four digits. -/
def parseHexField (off acc : Nat) : List Char → Option (Nat × Nat × List Char)
  | [] => some (off, acc, [])
  | c :: rest =>
    match hexVal c with
    | none => some (off, acc, c :: rest)
    | some v =>
      if off > 3 then none
      else if (acc * 16 + v) % 2 ^ 32 > 0xFFFF then none
      else parseHexField (off + 1) ((acc * 16 + v) % 2 ^ 32) rest

/-- The main loop of Go `netip.parseIPv6` (`for i < 16`).  `ip` holds the bytes
written so far (`i = ip.length`), `ellipsis` the position of `::` if seen.  Each
round that continues adds two bytes, so eight rounds exhaust the loop condition;
the result is the state on leaving the loop. -/
def parseIPv6Loop : Nat → List Char → List Nat → Option Nat →
    Option (List Char × List Nat × Option Nat)
  | 0, s, ip, ellipsis => some (s, ip, ellipsis)
  | fuel + 1, s, ip, ellipsis =>
    if ¬ ip.length < 16 then some (s, ip, ellipsis)
    else
      match parseHexField 0 0 s with
      | none => none
      | some (off, acc, rest) =>
        if off = 0 then none
        else if rest.head? = some '.' then
          if ellipsis = none ∧ ip.length ≠ 12 then none
          else if ip.length + 4 > 16 then none
          else
            match parseIPv4Fields s with
            | none => none
            | some f => some ([], ip ++ f, ellipsis)
        else
          match rest with
          | [] => some ([], ip ++ [acc / 256, acc % 256], ellipsis)
          | c :: rest1 =>
            if c ≠ ':' then none
            else
              match rest1 with
              | [] => none
              | d :: rest2 =>
                if d = ':' then
                  if ellipsis.isSome then none
                  else if rest2 = [] then
                    some ([], ip ++ [acc / 256, acc % 256], some (ip.length + 2))
                  else
                    parseIPv6Loop fuel rest2 (ip ++ [acc / 256, acc % 256])
                      (some (ip.length + 2))
                else
                  parseIPv6Loop fuel (d :: rest2) (ip ++ [acc / 256, acc % 256]) ellipsis

/-- The end of Go `netip.parseIPv6`, after the loop: the whole string must be used,
and `::` is expanded to the missing zero bytes (the bytes from `ellipsis` on move to
the end of the sixteen). -/
def parseIPv6Finish (zone : String) :
    List Char × List Nat × Option Nat → Option Addr
  | (rest, ip, ellipsis) =>
    if rest ≠ [] then none
    else if ip.length < 16 then
      match ellipsis with
      | none => none
      | some e =>
        some ⟨ip.take e ++ List.replicate (16 - ip.length) 0 ++ ip.drop e, zone⟩
    else if ellipsis.isSome then none
    else some ⟨ip, zone⟩

/-- Go `netip.parseIPv6` from the loop on: `s` is the text still to read, `ellipsis`
is `some 0` after a leading `::`. -/
def parseIPv6Groups (s : List Char) (ellipsis : Option Nat) (zone : String) : Option Addr :=
  match parseIPv6Loop 8 s [] ellipsis with
  | none => none
  | some st => parseIPv6Finish zone st

/-- Go `netip.parseIPv6` once the zone is split off: a leading `::` is consumed, and
`::` alone is the unspecified address. -/
def parseIPv6NoZone (s : List Char) (zone : String) : Option Addr :=
  if s.take 2 = [':', ':'] then
    if s.drop 2 = [] then some ⟨List.replicate 16 0, zone⟩
    else parseIPv6Groups (s.drop 2) (some 0) zone
  else parseIPv6Groups s none zone

/-- Go `netip.parseIPv6`: the text after the first `%` is the zone, which must not
be empty when the `%` is there. -/
def parseIPv6 (s : List Char) : Option Addr :=
  match s.dropWhile (· ≠ '%') with
  | [] => parseIPv6NoZone s ""
  | _ :: zone =>
    if zone = [] then none
    else parseIPv6NoZone (s.takeWhile (· ≠ '%')) ⟨zone⟩

/-- The scan of Go `netip.ParseAddr` for the first `.`, `:` or `%` of `s`. -/
def parseAddrScan (s : List Char) : List Char → Option Addr
  | [] => none
  | c :: rest =>
    if c = '.' then parseIPv4 s
    else if c = ':' then parseIPv6 s
    else if c = '%' then none
    else parseAddrScan s rest

/-- Go `netip.ParseAddr`. -/
def ParseAddr (s : List Char) : Option Addr :=
  parseAddrScan s s

/-- Go `netip.Addr.BitLen`. -/
def Addr.BitLen (a : Addr) : Nat :=
  8 * a.bytes.length

/-- The prefix `00 00 00 00 00 00 00 00 00 00 ff ff` of an IPv4-mapped IPv6 address. -/
def v4InV6Prefix : List Nat :=
  [0, 0, 0, 0, 0, 0, 0, 0, 0, 0, 0xff, 0xff]

/-- Go `netip.Addr.As16`: the 16-byte form, an IPv4 address as IPv4-mapped IPv6. -/
def Addr.As16 (a : Addr) : List Nat :=
  if a.bytes.length = 4 then v4InV6Prefix ++ a.bytes else a.bytes

/-! ## package `net` -/

/-- Go `net.IP`, a byte slice of length 4 or 16. -/
abbrev IP := List Nat

/-- Go `net.IPMask`. -/
abbrev IPMask := List Nat

/-- Go `net.IPNet`: network number and mask. -/
structure IPNet where
  IP : IP
  Mask : IPMask
  deriving DecidableEq, Repr

/-- Go `net.ParseIP`: the 16-byte form of the address written in `s`, `none` (Go
`nil`) when `s` is not an address or carries a zone. -/
def ParseIP (s : String) : Option IP :=
  match ParseAddr s.data with
  | none => none
  | some a => if a.zone ≠ "" then none else some a.As16

/-- Go `net.big`, the bound of `dtoi`. -/
def big : Nat := 0xFFFFFF

/-- The loop of Go `net.dtoi`: value read, number of digits read, and whether the
value stayed below `big`. -/
def dtoiLoop (n i : Nat) : List Char → Nat × Nat × Bool
  | [] => (n, i, true)
  | c :: rest =>
    match digitVal c with
    | none => (n, i, true)
    | some d =>
      if n * 10 + d ≥ big then (big, i, false)
      else dtoiLoop (n * 10 + d) (i + 1) rest

/-- Go `net.dtoi`: decimal to integer; gives the value, the number of characters
consumed and success. -/
def dtoi (s : List Char) : Nat × Nat × Bool :=
  match dtoiLoop 0 0 s with
  | (n, i, false) => (n, i, false)
  | (n, i, true) => if i = 0 then (0, 0, false) else (n, i, true)

/-- The loop of Go `net.CIDRMask`: `l` more mask bytes with `n` one-bits left. -/
def CIDRMaskLoop : Nat → Nat → List Nat
  | 0, _ => []
  | l + 1, n =>
    if n ≥ 8 then 0xff :: CIDRMaskLoop l (n - 8)
    else (0xff - (0xff >>> n)) :: CIDRMaskLoop l 0

/-- Go `net.CIDRMask(ones, bits)`: `ones` one-bits followed by zeros, `bits` long;
`nil` unless `bits` is 32 or 128 and `ones ≤ bits`. -/
def CIDRMask (ones bits : Nat) : IPMask :=
  if bits ≠ 32 ∧ bits ≠ 128 then []
  else if ones > bits then []
  else CIDRMaskLoop (bits / 8) ones

/-- Go `net.allFF`. -/
def allFF (b : List Nat) : Bool :=
  b.all (· == 0xff)

/-- Go `net.isZeros`. -/
def isZeros (b : List Nat) : Bool :=
  b.all (· == 0)

/-- Go `net.IP.Mask`: the address masked byte by byte, `nil` on a length mismatch. -/
def IP.Mask (ip : IP) (mask : IPMask) : IP :=
  let mask1 := if mask.length = 16 ∧ ip.length = 4 ∧ allFF (mask.take 12) then mask.drop 12
    else mask
  let ip1 := if mask1.length = 4 ∧ ip.length = 16 ∧ ip.take 12 = v4InV6Prefix then ip.drop 12
    else ip
  if ip1.length ≠ mask1.length then []
  else List.zipWith (· &&& ·) ip1 mask1

/-- Go `net.ParseCIDR`, its `*IPNet` result: the network of `address/length`. -/
def ParseCIDR (s : String) : Option IPNet :=
  match IndexByte '/' s.data with
  | none => none
  | some i =>
    let addr := s.data.take i
    let mask := s.data.drop (i + 1)
    match ParseAddr addr with
    | none => none
    | some ipAddr =>
      if ipAddr.zone ≠ "" then none
      else
        match dtoi mask with
        | (n, j, ok) =>
          if ¬ ok ∨ j ≠ mask.length ∨ n > ipAddr.BitLen then none
          else
            let m := CIDRMask n ipAddr.BitLen
            some ⟨IP.Mask ipAddr.As16 m, m⟩

/-- Go `net.IP.To4`: the 4-byte form of an IPv4 (or IPv4-mapped) address, else `nil`. -/
def IP.To4 (ip : IP) : Option IP :=
  if ip.length = 4 then some ip
  else if ip.length = 16 ∧ isZeros (ip.take 10) ∧ ip.get? 10 = some 0xff ∧
      ip.get? 11 = some 0xff then some (ip.drop 12)
  else none

/-- Go `net.networkNumberAndMask`; `([], [])` stands for `(nil, nil)`. -/
def networkNumberAndMask (n : IPNet) : IP × IPMask :=
  let r : Option IP :=
    match IP.To4 n.IP with
    | some ip => some ip
    | none => if n.IP.length ≠ 16 then none else some n.IP
  match r with
  | none => ([], [])
  | some ip =>
    if n.Mask.length = 4 then
      if ip.length ≠ 4 then ([], []) else (ip, n.Mask)
    else if n.Mask.length = 16 then
      if ip.length = 4 then (ip, n.Mask.drop 12) else (ip, n.Mask)
    else ([], [])

/-- The comparison loop of Go `(*IPNet).Contains` over the first `l` bytes. -/
def containsLoop (nn m ip : List Nat) (l : Nat) : Bool :=
  (List.range l).all fun i => (nn.getD i 0 &&& m.getD i 0) == (ip.getD i 0 &&& m.getD i 0)

/-- Go `(*net.IPNet).Contains`: whether the network includes `ip`. -/
def IPNet.Contains (n : IPNet) (ip : Govanityurls.IP) : Bool :=
  match networkNumberAndMask n with
  | (nn, m) =>
    let ip1 := match IP.To4 ip with
      | some x => x
      | none => ip
    if ip1.length ≠ nn.length then false
    else containsLoop nn m ip1 ip1.length

/-- Go `net.SplitHostPort`, its `host` result with the error flag: `none` is an
error (Go then returns the empty host). -/
def SplitHostPort (hostport : String) : Option (String × String) :=
  let hp := hostport.data
  match LastIndexByte ':' hp with
  | none => none
  | some i =>
    if hp.head? = some '[' then
      match IndexByte ']' hp with
      | none => none
      | some e =>
        if e + 1 = hp.length then none
        else if e + 1 ≠ i then none
        else if (IndexByte '[' (hp.drop 1)).isSome then none
        else if (IndexByte ']' (hp.drop (e + 1))).isSome then none
        else some (⟨(hp.take e).drop 1⟩, ⟨hp.drop (i + 1)⟩)
    else
      if (IndexByte ':' (hp.take i)).isSome then none
      else if (IndexByte '[' hp).isSome then none
      else if (IndexByte ']' hp).isSome then none
      else some (⟨hp.take i⟩, ⟨hp.drop (i + 1)⟩)

/-! ## package `net/http` -/

/-- Go `http.Header`: the values recorded under each header name (the name as the
program passes it to `Get`, which canonicalises it; absent names have no values). -/
abbrev Header := String → List String

/-- Go `http.Header.Get`: the first value under `key`, `""` when there is none. -/
def Header.Get (h : Header) (key : String) : String :=
  match h key with
  | [] => ""
  | v :: _ => v

/-- The fields of Go `*http.Request` that `main.go` reads: `r.URL.Path`, `r.Header`
and `r.RemoteAddr`. -/
structure Request where
  Path : String
  Header : Header
  RemoteAddr : String

/-! ## `main.go` -/

/-- The anonymous struct of the package variable `m`: one vanity entry. -/
structure Entry where
  Repo : String
  Display : String
  Allows : List String
  deriving DecidableEq, Repr

/-- The package variable `m`, a Go map from request path to entry. -/
abbrev Mapping := String → Option Entry

/-- Go `strings.Contains`. -/
def Contains (s substr : String) : Bool :=
  (Index substr.data s.data).isSome

/-- Go `strings.HasSuffix`. -/
def HasSuffix (s suffix : String) : Bool :=
  suffix.data.reverse.isPrefixOf s.data.reverse

/-- The body of the `for path, entry := range m` loop of `init` for one entry. -/
def initEntry (entry : Entry) : Entry :=
  if entry.Display ≠ "" then entry
  else if Contains entry.Repo "github.com" then
    { entry with
      Display := entry.Repo ++ " " ++ entry.Repo ++ "/tree/master\x7b/dir\x7d " ++
        entry.Repo ++ "/blob/master\x7b/dir\x7d/\x7bfile\x7d#L\x7bline\x7d" }
  else entry

/-- The display-defaulting pass of `init` over the loaded mapping: every entry is
visited once and written back under its own path. -/
def initDisplay (m : Mapping) : Mapping :=
  fun path => (m path).map initEntry

/-- The `host` normalisation of `main`: a trailing slash is appended if missing. -/
def mainHost (host : String) : String :=
  if ¬ HasSuffix host "/" then host ++ "/" else host

/-- `realIP` of `main.go`: the client address from the proxy headers, else from
`RemoteAddr`.  `none` is the index panic of `parts[0]`. -/
def realIP (r : Request) : Option String :=
  if r.Header.Get "CF-Connecting-IP" ≠ "" then
    some (TrimSpace (r.Header.Get "CF-Connecting-IP"))
  else if r.Header.Get "X-Forwarded-For" ≠ "" then
    let parts := SplitN (r.Header.Get "X-Forwarded-For") "," 2
    match parts with
    | [] => none
    | p0 :: _ => some (TrimSpace p0)
  else if r.Header.Get "X-Real-IP" ≠ "" then
    some (TrimSpace (r.Header.Get "X-Real-IP"))
  else
    match SplitHostPort r.RemoteAddr with
    | some (host, _) => some host
    | none => some ""

/-- The `for _, rule := range allows` loop of `ipAllowed`. -/
def ipAllowedLoop (clientIP : String) (ip : IP) : List String → Bool
  | [] => false
  | rule :: rest =>
    if TrimSpace rule = clientIP then true
    else
      match ParseCIDR (TrimSpace rule) with
      | some ipnet => if ipnet.Contains ip then true else ipAllowedLoop clientIP ip rest
      | none => ipAllowedLoop clientIP ip rest

/-- `ipAllowed` of `main.go`: whether the client address passes the allow rules. -/
def ipAllowed (clientIP : String) (allows : List String) : Bool :=
  if allows.length = 0 then true
  else
    match ParseIP clientIP with
    | none => false
    | some ip => ipAllowedLoop clientIP ip allows

/-- What `handle` does with a request: `http.NotFound`; the 302 `http.Redirect`
with its `log.Printf` message; or the struct handed to `vanityTmpl.Execute`. -/
inductive Decision where
  | NotFound
  | Denied (code : Nat) (target : String) (logged : String)
  | Permit (Import Repo Display : String)
  deriving DecidableEq, Repr

/-- `handle` of `main.go` over the package variables `m` and `host`; `none` is a
panic inside `realIP`. -/
def handle (m : Mapping) (host : String) (r : Request) : Option Decision :=
  match m r.Path with
  | none => some Decision.NotFound
  | some conf =>
    match realIP r with
    | none => none
    | some clientIP =>
      if ¬ ipAllowed clientIP conf.Allows then
        some (Decision.Denied 302 "https://yuanc.com"
          ("Forbidden: " ++ clientIP ++ " → " ++ r.Path))
      else
        some (Decision.Permit (TrimRight host "/" ++ "/" ++ TrimLeft r.Path "/")
          conf.Repo conf.Display)


/-! ## Notions used to state the properties -/

/-- The characters an address accepted by `ParseIP` is written with: hexadecimal
digits, `.` and `:`. -/
def addrChar (c : Char) : Bool :=
  (hexVal c).isSome || c == '.' || c == ':'

/-- The number a big-endian byte sequence denotes; for the four bytes of an IPv4
address, its 32-bit value. -/
def ipv4Value (b : List Nat) : Nat :=
  b.foldl (fun acc x => acc * 256 + x) 0

/-- The host `realIP` falls back to: the `host` result of `net.SplitHostPort` on
`RemoteAddr`, empty when the split fails. -/
def peerHost (r : Request) : String :=
  match SplitHostPort r.RemoteAddr with
  | some (host, _) => host
  | none => ""

/-- The candidate addresses in header-priority order, in the specification's words:
the trimmed `CF-Connecting-IP` value, the trimmed first comma-separated element of
`X-Forwarded-For`, the trimmed `X-Real-IP` value. -/
def candidates (r : Request) : List String :=
  [TrimSpace (r.Header.Get "CF-Connecting-IP"),
   TrimSpace (String.mk ((r.Header.Get "X-Forwarded-For").data.takeWhile (fun x => x ≠ ','))),
   TrimSpace (r.Header.Get "X-Real-IP")]

/-- The resolution rule in the specification's words: the first non-empty candidate,
and the peer host when no candidate is non-empty. -/
def firstNonEmptyCandidate (r : Request) : String :=
  match (candidates r).find? (fun c => c ≠ "") with
  | some c => c
  | none => peerHost r

/-- The display text `init` derives from a repository URL, in the specification's
words. -/
def githubDisplay (repo : String) : String :=
  repo ++ " " ++ repo ++ "/tree/master\x7b/dir\x7d " ++ repo ++
    "/blob/master\x7b/dir\x7d/\x7bfile\x7d#L\x7bline\x7d"

/-- The mapping with the single key `key`. -/
def singleMapping (key : String) (e : Entry) : Mapping :=
  fun p => if p = key then some e else none

/-! ## Example inputs -/

/-- A request carrying all three proxy headers. -/
def reqAllHeaders : Request :=
  { Path := "/pkg/foo"
    Header := fun k =>
      if k = "CF-Connecting-IP" then [" 198.51.100.7 "]
      else if k = "X-Forwarded-For" then ["203.0.113.5, 10.0.0.1"]
      else if k = "X-Real-IP" then ["192.0.2.44"]
      else []
    RemoteAddr := "127.0.0.1:4711" }

/-- A request carrying a forwarded chain and a real-IP header, but no
`CF-Connecting-IP`. -/
def reqForwarded : Request :=
  { Path := "/pkg/foo"
    Header := fun k =>
      if k = "X-Forwarded-For" then ["203.0.113.5, 10.0.0.1"]
      else if k = "X-Real-IP" then ["192.0.2.44"]
      else []
    RemoteAddr := "127.0.0.1:4711" }

/-- The mapping with the single path `/secret`, restricted to `198.51.100.0/24`. -/
def secretMapping : Mapping :=
  fun p =>
    if p = "/secret" then
      some { Repo := "https://github.com/acme/secret", Display := "",
             Allows := ["198.51.100.0/24"] }
    else none

/-- A request for `/secret` whose resolved client address is `203.0.113.9`. -/
def reqSecret : Request :=
  { Path := "/secret"
    Header := fun k => if k = "X-Real-IP" then ["203.0.113.9"] else []
    RemoteAddr := "127.0.0.1:4711" }

/-- The unrestricted entry of the path `/pkg/foo`. -/
def fooEntry : Entry :=
  { Repo := "https://github.com/acme/foo", Display := "", Allows := [] }

/-- A request for `/pkg/foo` without proxy headers. -/
def reqDirect : Request :=
  { Path := "/pkg/foo"
    Header := fun _ => []
    RemoteAddr := "192.0.2.10:52044" }

/-- A request for `/pkg/foo/`, the key `/pkg/foo` with a trailing slash. -/
def reqTrailingSlash : Request :=
  { Path := "/pkg/foo/"
    Header := fun k => if k = "X-Real-IP" then ["192.0.2.44"] else []
    RemoteAddr := "192.0.2.10:52044" }

/-- A request for `/PKG/foo`, the key `/pkg/foo` in another letter case. -/
def reqUpperCase : Request :=
  { Path := "/PKG/foo"
    Header := fun _ => []
    RemoteAddr := "192.0.2.10:52044" }

/-- A request whose forwarded chain starts with an empty element. -/
def reqEmptyFirstHop : Request :=
  { Path := "/pkg/foo"
    Header := fun k =>
      if k = "X-Forwarded-For" then [", 203.0.113.5"]
      else if k = "X-Real-IP" then ["192.0.2.44"]
      else []
    RemoteAddr := "127.0.0.1:4711" }

/-- A loaded mapping with a GitHub entry without display, a GitHub entry with its
own display, and an entry hosted elsewhere. -/
def loadedMapping : Mapping :=
  fun p =>
    if p = "/pkg/foo" then
      some { Repo := "https://github.com/acme/foo", Display := "", Allows := ["10.0.0.0/8"] }
    else if p = "/pkg/bar" then
      some { Repo := "https://github.com/acme/bar", Display := "own display", Allows := [] }
    else if p = "/pkg/baz" then
      some { Repo := "https://gitlab.com/acme/baz", Display := "", Allows := [] }
    else none

/-! ## Characters and bytes of parsed addresses -/

theorem hexVal_isSome_range (c : Char) (h : (hexVal c).isSome = true) :
    48 ≤ c.toNat ∧ c.toNat ≤ 102 := by
  unfold hexVal at h
  split_ifs at h with h1 h2 h3
  · omega
  · omega
  · omega
  · simp at h

theorem digitVal_hexVal (c : Char) (d : Nat) (h : digitVal c = some d) :
    (hexVal c).isSome = true := by
  unfold digitVal at h
  unfold hexVal
  split_ifs at h with h1
  simp [h1]

theorem addrChar_range (c : Char) (h : addrChar c = true) :
    46 ≤ c.toNat ∧ c.toNat ≤ 102 ∧ c.toNat ≠ 47 := by
  unfold addrChar at h
  simp only [Bool.or_eq_true, beq_iff_eq] at h
  rcases h with (h | h) | h
  · have := hexVal_isSome_range c h
    omega
  · subst h; decide
  · subst h; decide

theorem addrChar_not_isSpace (c : Char) (h : addrChar c = true) : isSpace c = false := by
  have := addrChar_range c h
  simp only [isSpace, Bool.or_eq_false_iff, beq_eq_false_iff_ne, Bool.and_eq_false_imp, decide_eq_true_eq, decide_eq_false_iff_not]
  omega

theorem addrChar_ne_slash (c : Char) (h : addrChar c = true) : c ≠ '/' := by
  have := addrChar_range c h
  intro e
  subst e
  simp at this

theorem parseIPv4FieldsLoop_chars (s : List Char) :
    ∀ (prev : Option Char) (val digLen : Nat) (fields r : List Nat),
      parseIPv4FieldsLoop prev val digLen fields s = some r →
      ∀ c ∈ s, addrChar c = true := by
  induction s with
  | nil => intro _ _ _ _ _ _ c hc; simp at hc
  | cons x rest ih =>
    intro prev val digLen fields r h c hc
    unfold parseIPv4FieldsLoop at h
    cases hd : digitVal x with
    | some d =>
      simp only [hd] at h
      split_ifs at h with h1 h2
      rcases List.mem_cons.mp hc with rfl | hc
      · simp [addrChar, digitVal_hexVal _ d hd]
      · exact ih _ _ _ _ _ h c hc
    | none =>
      simp only [hd] at h
      split_ifs at h with h1 h2 h3
      rcases List.mem_cons.mp hc with rfl | hc
      · simp [addrChar, h1]
      · exact ih _ _ _ _ _ h c hc


theorem parseHexField_spec (s : List Char) :
    ∀ (off acc off2 acc2 : Nat) (rest : List Char),
      parseHexField off acc s = some (off2, acc2, rest) → acc ≤ 0xFFFF →
      (∃ pre, s = pre ++ rest ∧ ∀ c ∈ pre, addrChar c = true) ∧ acc2 ≤ 0xFFFF := by
  induction s with
  | nil =>
    intro off acc off2 acc2 rest h hacc
    simp only [parseHexField, Option.some.injEq, Prod.mk.injEq] at h
    obtain ⟨_, rfl, rfl⟩ := h
    exact ⟨⟨[], rfl, by simp⟩, hacc⟩
  | cons x xs ih =>
    intro off acc off2 acc2 rest h hacc
    unfold parseHexField at h
    cases hx : hexVal x with
    | none =>
      simp only [hx, Option.some.injEq, Prod.mk.injEq] at h
      obtain ⟨_, rfl, rfl⟩ := h
      exact ⟨⟨[], rfl, by simp⟩, hacc⟩
    | some v =>
      simp only [hx] at h
      split_ifs at h with h1 h2
      obtain ⟨⟨pre, hpre, hall⟩, hacc2⟩ := ih _ _ _ _ _ h (by omega)
      refine ⟨⟨x :: pre, by simp [hpre], ?_⟩, hacc2⟩
      intro c hc
      rcases List.mem_cons.mp hc with rfl | hc
      · simp [addrChar, hx]
      · exact hall c hc

theorem parseIPv6Loop_chars (fuel : Nat) :
    ∀ (s : List Char) (ip : List Nat) (ell : Option Nat) (rest : List Char) (ip2 : List Nat)
      (ell2 : Option Nat),
      parseIPv6Loop fuel s ip ell = some (rest, ip2, ell2) →
      (∀ c ∈ rest, addrChar c = true) → ∀ c ∈ s, addrChar c = true := by
  induction fuel with
  | zero =>
    intro s ip ell rest ip2 ell2 h hrest
    simp only [parseIPv6Loop, Option.some.injEq, Prod.mk.injEq] at h
    obtain ⟨rfl, _, _⟩ := h
    exact hrest
  | succ n ih =>
    intro s ip ell rest ip2 ell2 h hrest
    unfold parseIPv6Loop at h
    by_cases h0 : ¬ ip.length < 16
    · rw [if_pos h0] at h
      simp only [Option.some.injEq, Prod.mk.injEq] at h
      obtain ⟨rfl, _, _⟩ := h
      exact hrest
    rw [if_neg h0] at h
    cases hhex : parseHexField 0 0 s with
    | none => simp [hhex] at h
    | some t =>
      obtain ⟨off, acc, rst⟩ := t
      obtain ⟨⟨pre, hpre, hall⟩, _⟩ := parseHexField_spec s _ _ _ _ _ hhex (by omega)
      simp only [hhex] at h
      by_cases h1 : off = 0
      · simp [h1] at h
      rw [if_neg h1] at h
      by_cases h2 : rst.head? = some '.'
      · rw [if_pos h2] at h
        cases hf : parseIPv4Fields s with
        | none => simp [hf] at h
        | some f => exact parseIPv4FieldsLoop_chars s _ _ _ _ _ hf
      rw [if_neg h2] at h
      have hcolon : addrChar ':' = true := by decide
      cases rst with
      | nil =>
        intro c hc
        rw [hpre, List.append_nil] at hc
        exact hall c hc
      | cons c rest1 =>
        simp only at h
        by_cases hc : c ≠ ':'
        · simp [hc] at h
        rw [if_neg hc] at h
        have hc2 : c = ':' := not_not.mp hc
        cases rest1 with
        | nil => simp at h
        | cons d rest2 =>
          simp only at h
          have hfin : (∀ x ∈ d :: rest2, addrChar x = true) → ∀ x ∈ s, addrChar x = true := by
            intro hd x hx
            rw [hpre] at hx
            rcases List.mem_append.mp hx with hx | hx
            · exact hall x hx
            · rcases List.mem_cons.mp hx with rfl | hx
              · rw [hc2]; exact hcolon
              · exact hd x hx
          apply hfin
          by_cases hd : d = ':'
          · rw [if_pos hd] at h
            by_cases he : ell.isSome = true
            · simp [he] at h
            rw [if_neg he] at h
            intro x hx
            rcases List.mem_cons.mp hx with rfl | hx
            · rw [hd]; exact hcolon
            · by_cases hr : rest2 = []
              · rw [hr] at hx; simp at hx
              · rw [if_neg hr] at h
                exact ih _ _ _ _ _ _ h hrest x hx
          · rw [if_neg hd] at h
            exact ih _ _ _ _ _ _ h hrest

theorem parseIPv6Finish_spec (zone : String) (st : List Char × List Nat × Option Nat)
    (a : Addr) (h : parseIPv6Finish zone st = some a) :
    a.zone = zone ∧ st.1 = [] ∧ ((∀ b ∈ st.2.1, b < 256) → ∀ b ∈ a.bytes, b < 256) := by
  obtain ⟨rest, ip, ell⟩ := st
  unfold parseIPv6Finish at h
  simp only at h
  by_cases h1 : rest ≠ []
  · simp [h1] at h
  rw [if_neg h1] at h
  have hrest : rest = [] := not_not.mp h1
  by_cases h2 : ip.length < 16
  · rw [if_pos h2] at h
    cases ell with
    | none => simp at h
    | some e =>
      simp only [Option.some.injEq] at h
      subst h
      refine ⟨rfl, hrest, ?_⟩
      intro hb b hmem
      simp only [List.mem_append, List.mem_replicate] at hmem
      rcases hmem with (hmem | hmem) | hmem
      · exact hb b (List.mem_of_mem_take hmem)
      · omega
      · exact hb b (List.mem_of_mem_drop hmem)
  · rw [if_neg h2] at h
    by_cases h3 : ell.isSome = true
    · simp [h3] at h
    rw [if_neg h3] at h
    simp only [Option.some.injEq] at h
    subst h
    exact ⟨rfl, hrest, fun hb => hb⟩

theorem parseIPv6Groups_chars (s : List Char) (ell : Option Nat) (zone : String) (a : Addr)
    (h : parseIPv6Groups s ell zone = some a) :
    a.zone = zone ∧ ∀ c ∈ s, addrChar c = true := by
  unfold parseIPv6Groups at h
  cases hl : parseIPv6Loop 8 s [] ell with
  | none => simp [hl] at h
  | some st =>
    simp only [hl] at h
    obtain ⟨hz, hr, _⟩ := parseIPv6Finish_spec zone st a h
    obtain ⟨rest, ip, e2⟩ := st
    simp only at hr
    subst hr
    exact ⟨hz, parseIPv6Loop_chars 8 s [] ell [] ip e2 hl (by simp)⟩

theorem parseIPv6NoZone_chars (s : List Char) (zone : String) (a : Addr)
    (h : parseIPv6NoZone s zone = some a) :
    a.zone = zone ∧ ∀ c ∈ s, addrChar c = true := by
  unfold parseIPv6NoZone at h
  have hcolon : addrChar ':' = true := by decide
  by_cases h1 : s.take 2 = [':', ':']
  · rw [if_pos h1] at h
    have hs : s = [':', ':'] ++ s.drop 2 := by
      rw [← h1, List.take_append_drop]
    have key : (∀ c ∈ s.drop 2, addrChar c = true) → ∀ c ∈ s, addrChar c = true := by
      intro hd c hc
      rw [hs] at hc
      simp only [List.cons_append, List.nil_append, List.mem_cons] at hc
      rcases hc with rfl | rfl | hc
      · exact hcolon
      · exact hcolon
      · exact hd c hc
    by_cases h2 : s.drop 2 = []
    · rw [if_pos h2] at h
      simp only [Option.some.injEq] at h
      subst h
      exact ⟨rfl, key (by simp [h2])⟩
    · rw [if_neg h2] at h
      obtain ⟨hz, hc⟩ := parseIPv6Groups_chars _ _ _ _ h
      exact ⟨hz, key hc⟩
  · rw [if_neg h1] at h
    exact parseIPv6Groups_chars _ _ _ _ h

theorem parseIPv6_chars (s : List Char) (a : Addr) (h : parseIPv6 s = some a)
    (hz : a.zone = "") : ∀ c ∈ s, addrChar c = true := by
  unfold parseIPv6 at h
  split at h
  · exact (parseIPv6NoZone_chars _ _ _ h).2
  · rename_i p zone hp
    by_cases h1 : zone = []
    · simp [h1] at h
    · rw [if_neg h1] at h
      have := (parseIPv6NoZone_chars _ _ _ h).1
      rw [hz] at this
      exact absurd (congrArg String.data this).symm h1

theorem parseAddrScan_chars (s t : List Char) (a : Addr) (h : parseAddrScan s t = some a)
    (hz : a.zone = "") : ∀ c ∈ s, addrChar c = true := by
  induction t with
  | nil => simp [parseAddrScan] at h
  | cons x rest ih =>
    unfold parseAddrScan at h
    split_ifs at h with h1 h2 h3
    · unfold parseIPv4 parseIPv4Fields at h
      cases hf : parseIPv4FieldsLoop none 0 0 [] s with
      | none => simp [hf] at h
      | some f => exact parseIPv4FieldsLoop_chars s _ _ _ _ _ hf
    · exact parseIPv6_chars s a h hz
    · exact ih h

theorem ParseIP_chars (c : String) (ip : IP) (h : ParseIP c = some ip) :
    ∀ x ∈ c.data, addrChar x = true := by
  unfold ParseIP at h
  cases ha : ParseAddr c.data with
  | none => simp [ha] at h
  | some a =>
    simp only [ha] at h
    by_cases hz : a.zone ≠ ""
    · simp [hz] at h
    · exact parseAddrScan_chars c.data c.data a ha (not_not.mp hz)

theorem trim_of_no_space (l : List Char) (h : ∀ x ∈ l, isSpace x = false) :
    trimRightFunc isSpace (trimLeftFunc isSpace l) = l := by
  have h1 : ∀ l : List Char, (∀ x ∈ l, isSpace x = false) → l.dropWhile isSpace = l := by
    intro l hl
    cases l with
    | nil => rfl
    | cons x rest => simp [List.dropWhile, hl x (List.mem_cons_self _ _)]
  unfold trimRightFunc trimLeftFunc
  rw [h1 l h, h1 l.reverse (fun x hx => h x (List.mem_reverse.mp hx)), List.reverse_reverse]

theorem TrimSpace_of_ParseIP (c : String) (ip : IP) (h : ParseIP c = some ip) :
    TrimSpace c = c := by
  unfold TrimSpace
  rw [trim_of_no_space c.data (fun x hx => addrChar_not_isSpace x (ParseIP_chars c ip h x hx))]

theorem parseIPv4FieldsLoop_bytes (s : List Char) :
    ∀ (prev : Option Char) (val digLen : Nat) (fields r : List Nat),
      parseIPv4FieldsLoop prev val digLen fields s = some r →
      val < 256 → (∀ b ∈ fields, b < 256) → fields.length ≤ 3 →
      (∀ b ∈ r, b < 256) ∧ r.length = 4 := by
  induction s with
  | nil =>
    intro prev val digLen fields r h hv hf hl
    unfold parseIPv4FieldsLoop at h
    split_ifs at h with h1
    simp only [Option.some.injEq] at h
    subst h
    refine ⟨?_, by simp; omega⟩
    intro b hb
    rcases List.mem_append.mp hb with hb | hb
    · exact hf b hb
    · simp at hb; omega
  | cons x rest ih =>
    intro prev val digLen fields r h hv hf hl
    unfold parseIPv4FieldsLoop at h
    cases hd : digitVal x with
    | some d =>
      simp only [hd] at h
      split_ifs at h with h1 h2
      exact ih _ _ _ _ _ h (by omega) hf hl
    | none =>
      simp only [hd] at h
      split_ifs at h with h1 h2 h3
      refine ih _ _ _ _ _ h (by omega) ?_ (by simp; omega)
      intro b hb
      rcases List.mem_append.mp hb with hb | hb
      · exact hf b hb
      · simp at hb; omega

theorem parseIPv4Fields_bytes (s : List Char) (f : List Nat) (h : parseIPv4Fields s = some f) :
    (∀ b ∈ f, b < 256) ∧ f.length = 4 :=
  parseIPv4FieldsLoop_bytes s none 0 0 [] f h (by omega) (by simp) (by simp)

theorem parseIPv6Loop_bytes (fuel : Nat) :
    ∀ (s : List Char) (ip : List Nat) (ell : Option Nat) (rest : List Char) (ip2 : List Nat)
      (ell2 : Option Nat),
      parseIPv6Loop fuel s ip ell = some (rest, ip2, ell2) →
      (∀ b ∈ ip, b < 256) → ∀ b ∈ ip2, b < 256 := by
  induction fuel with
  | zero =>
    intro s ip ell rest ip2 ell2 h hip
    simp only [parseIPv6Loop, Option.some.injEq, Prod.mk.injEq] at h
    obtain ⟨_, rfl, _⟩ := h
    exact hip
  | succ n ih =>
    intro s ip ell rest ip2 ell2 h hip
    unfold parseIPv6Loop at h
    by_cases h0 : ¬ ip.length < 16
    · rw [if_pos h0] at h
      simp only [Option.some.injEq, Prod.mk.injEq] at h
      obtain ⟨_, rfl, _⟩ := h
      exact hip
    rw [if_neg h0] at h
    cases hhex : parseHexField 0 0 s with
    | none => simp [hhex] at h
    | some t =>
      obtain ⟨off, acc, rst⟩ := t
      obtain ⟨_, hacc⟩ := parseHexField_spec s _ _ _ _ _ hhex (by omega)
      simp only [hhex] at h
      have hnew : ∀ b ∈ ip ++ [acc / 256, acc % 256], b < 256 := by
        intro b hb
        rcases List.mem_append.mp hb with hb | hb
        · exact hip b hb
        · simp only [List.mem_cons, List.mem_singleton, List.not_mem_nil, or_false] at hb
          rcases hb with rfl | rfl <;> omega
      by_cases h1 : off = 0
      · simp [h1] at h
      rw [if_neg h1] at h
      by_cases h2 : rst.head? = some '.'
      · rw [if_pos h2] at h
        cases hf : parseIPv4Fields s with
        | none => simp [hf] at h
        | some f =>
          simp only [hf] at h
          split_ifs at h
          simp only [Option.some.injEq, Prod.mk.injEq] at h
          obtain ⟨_, rfl, _⟩ := h
          intro b hb
          rcases List.mem_append.mp hb with hb | hb
          · exact hip b hb
          · exact (parseIPv4Fields_bytes s f hf).1 b hb
      rw [if_neg h2] at h
      cases rst with
      | nil =>
        simp only [Option.some.injEq, Prod.mk.injEq] at h
        obtain ⟨_, rfl, _⟩ := h
        exact hnew
      | cons c rest1 =>
        simp only at h
        by_cases hc : c ≠ ':'
        · simp [hc] at h
        rw [if_neg hc] at h
        cases rest1 with
        | nil => simp at h
        | cons d rest2 =>
          simp only at h
          by_cases hd : d = ':'
          · rw [if_pos hd] at h
            by_cases he : ell.isSome = true
            · simp [he] at h
            rw [if_neg he] at h
            by_cases hr : rest2 = []
            · rw [if_pos hr] at h
              simp only [Option.some.injEq, Prod.mk.injEq] at h
              obtain ⟨_, rfl, _⟩ := h
              exact hnew
            · rw [if_neg hr] at h
              exact ih _ _ _ _ _ _ h hnew
          · rw [if_neg hd] at h
            exact ih _ _ _ _ _ _ h hnew

theorem parseIPv6Groups_bytes (s : List Char) (ell : Option Nat) (zone : String) (a : Addr)
    (h : parseIPv6Groups s ell zone = some a) : ∀ b ∈ a.bytes, b < 256 := by
  unfold parseIPv6Groups at h
  cases hl : parseIPv6Loop 8 s [] ell with
  | none => simp [hl] at h
  | some st =>
    simp only [hl] at h
    obtain ⟨_, _, hb⟩ := parseIPv6Finish_spec zone st a h
    obtain ⟨rest, ip, e2⟩ := st
    exact hb (parseIPv6Loop_bytes 8 s [] ell rest ip e2 hl (by simp))

theorem parseIPv6NoZone_bytes (s : List Char) (zone : String) (a : Addr)
    (h : parseIPv6NoZone s zone = some a) : ∀ b ∈ a.bytes, b < 256 := by
  unfold parseIPv6NoZone at h
  split_ifs at h with h1 h2
  · simp only [Option.some.injEq] at h
    subst h
    intro b hb
    simp only [List.mem_replicate] at hb
    omega
  · exact parseIPv6Groups_bytes _ _ _ _ h
  · exact parseIPv6Groups_bytes _ _ _ _ h

theorem parseIPv6_bytes (s : List Char) (a : Addr) (h : parseIPv6 s = some a) :
    ∀ b ∈ a.bytes, b < 256 := by
  unfold parseIPv6 at h
  split at h
  · exact parseIPv6NoZone_bytes _ _ _ h
  · split_ifs at h
    exact parseIPv6NoZone_bytes _ _ _ h

theorem parseAddrScan_bytes (s t : List Char) (a : Addr) (h : parseAddrScan s t = some a) :
    ∀ b ∈ a.bytes, b < 256 := by
  induction t with
  | nil => simp [parseAddrScan] at h
  | cons x rest ih =>
    unfold parseAddrScan at h
    split_ifs at h with h1 h2 h3
    · unfold parseIPv4 at h
      cases hf : parseIPv4Fields s with
      | none => simp [hf] at h
      | some f =>
        simp only [hf, Option.map_some', Option.some.injEq] at h
        subst h
        exact (parseIPv4Fields_bytes s f hf).1
    · exact parseIPv6_bytes s a h
    · exact ih h

theorem ParseIP_bytes (c : String) (ip : IP) (h : ParseIP c = some ip) :
    ∀ b ∈ ip, b < 256 := by
  unfold ParseIP at h
  cases ha : ParseAddr c.data with
  | none => simp [ha] at h
  | some a =>
    simp only [ha] at h
    split_ifs at h
    simp only [Option.some.injEq] at h
    subst h
    have hb := parseAddrScan_bytes c.data c.data a ha
    unfold Addr.As16
    split_ifs
    · intro b hmem
      rcases List.mem_append.mp hmem with hmem | hmem
      · simp only [v4InV6Prefix, List.mem_cons, List.mem_singleton, List.not_mem_nil,
          or_false] at hmem
        omega
      · exact hb b hmem
    · exact hb

theorem To4_spec (ip a4 : IP) (h : IP.To4 ip = some a4) (hb : ∀ b ∈ ip, b < 256) :
    a4.length = 4 ∧ ∀ b ∈ a4, b < 256 := by
  unfold IP.To4 at h
  split_ifs at h with h1 h2
  · simp only [Option.some.injEq] at h
    subst h
    exact ⟨h1, hb⟩
  · simp only [Option.some.injEq] at h
    subst h
    refine ⟨by simp [List.length_drop]; omega, fun b hmem => hb b (List.mem_of_mem_drop hmem)⟩

/-! ## IPv4 ranges: parsing and containment -/

theorem digitVal_range (c : Char) (d : Nat) (h : digitVal c = some d) :
    48 ≤ c.toNat ∧ c.toNat ≤ 57 := by
  unfold digitVal at h
  split_ifs at h with h1
  exact h1

theorem parseIPv4FieldsLoop_digits (s : List Char) :
    ∀ (prev : Option Char) (val digLen : Nat) (fields r : List Nat),
      parseIPv4FieldsLoop prev val digLen fields s = some r →
      (∀ c ∈ s, c = '.' ∨ ∃ d, digitVal c = some d) ∧ (fields.length < 3 → '.' ∈ s) := by
  induction s with
  | nil =>
    intro prev val digLen fields r h
    unfold parseIPv4FieldsLoop at h
    split_ifs at h with h1
    exact ⟨by simp, fun hl => absurd hl h1⟩
  | cons x rest ih =>
    intro prev val digLen fields r h
    unfold parseIPv4FieldsLoop at h
    cases hd : digitVal x with
    | some d =>
      simp only [hd] at h
      split_ifs at h with h1 h2
      obtain ⟨hall, hdot⟩ := ih _ _ _ _ _ h
      refine ⟨?_, fun hl => List.mem_cons_of_mem _ (hdot hl)⟩
      intro c hc
      rcases List.mem_cons.mp hc with rfl | hc
      · exact Or.inr ⟨d, hd⟩
      · exact hall c hc
    | none =>
      simp only [hd] at h
      split_ifs at h with h1 h2 h3
      obtain ⟨hall, _⟩ := ih _ _ _ _ _ h
      refine ⟨?_, fun _ => by simp [h1]⟩
      intro c hc
      rcases List.mem_cons.mp hc with rfl | hc
      · exact Or.inl h1
      · exact hall c hc

theorem parseAddrScan_ipv4 (s t : List Char)
    (hall : ∀ c ∈ t, c = '.' ∨ ∃ d, digitVal c = some d) (hdot : '.' ∈ t) :
    parseAddrScan s t = parseIPv4 s := by
  induction t with
  | nil => simp at hdot
  | cons x rest ih =>
    unfold parseAddrScan
    by_cases hx : x = '.'
    · rw [if_pos hx]
    · rw [if_neg hx]
      rcases hall x (List.mem_cons_self _ _) with h | ⟨d, hd⟩
      · exact absurd h hx
      · have hr := digitVal_range x d hd
        have h1 : ¬ x = ':' := by
          intro e; subst e; simp at hr
        have h2 : ¬ x = '%' := by
          intro e; subst e; simp at hr
        rw [if_neg h1, if_neg h2]
        apply ih (fun c hc => hall c (List.mem_cons_of_mem _ hc))
        rcases List.mem_cons.mp hdot with h | h
        · exact absurd h.symm hx
        · exact h

theorem ParseAddr_ipv4 (s : List Char) (f : List Nat) (h : parseIPv4Fields s = some f) :
    ParseAddr s = some ⟨f, ""⟩ := by
  obtain ⟨hall, hdot⟩ := parseIPv4FieldsLoop_digits s none 0 0 [] f h
  unfold ParseAddr
  rw [parseAddrScan_ipv4 s s hall (hdot (by simp)), parseIPv4, h]
  rfl

theorem IndexByte_append (c : Char) (pre post : List Char) (h : c ∉ pre) :
    IndexByte c (pre ++ c :: post) = some pre.length := by
  induction pre with
  | nil => simp [IndexByte]
  | cons x rest ih =>
    have hx : ¬ x = c := fun e => h (by simp [e])
    have hr : c ∉ rest := fun e => h (List.mem_cons_of_mem _ e)
    simp [IndexByte, hx, ih hr]

theorem CIDRMaskLoop_length (l n : Nat) : (CIDRMaskLoop l n).length = l := by
  induction l generalizing n with
  | zero => rfl
  | succ k ih =>
    unfold CIDRMaskLoop
    split_ifs <;> simp [ih]

theorem ParseCIDR_ipv4 (s : String) (baseStr lenStr : List Char) (b4 : List Nat) (len : Nat)
    (hs : s.data = baseStr ++ '/' :: lenStr) (hbase : parseIPv4Fields baseStr = some b4)
    (hlen : dtoi lenStr = (len, lenStr.length, true)) (hle : len ≤ 32) :
    ParseCIDR s =
      some ⟨List.zipWith (· &&& ·) b4 (CIDRMaskLoop 4 len), CIDRMaskLoop 4 len⟩ := by
  obtain ⟨hall, _⟩ := parseIPv4FieldsLoop_digits baseStr none 0 0 [] b4 hbase
  obtain ⟨_, hb4⟩ := parseIPv4Fields_bytes baseStr b4 hbase
  have hslash : '/' ∉ baseStr := by
    intro hmem
    rcases hall _ hmem with h | ⟨d, hd⟩
    · exact absurd h (by decide)
    · have := digitVal_range _ d hd
      simp at this
  have hmask : CIDRMask len 32 = CIDRMaskLoop 4 len := by
    unfold CIDRMask
    rw [if_neg (by omega), if_neg (by omega)]
  unfold ParseCIDR
  rw [hs, IndexByte_append '/' baseStr lenStr hslash]
  have htake : (baseStr ++ '/' :: lenStr).take baseStr.length = baseStr := by simp
  have hdrop : (baseStr ++ '/' :: lenStr).drop (baseStr.length + 1) = lenStr := by
    rw [← List.drop_drop]
    simp
  simp only [htake, hdrop, ParseAddr_ipv4 baseStr b4 hbase, hlen]
  have hbit : Addr.BitLen ⟨b4, ""⟩ = 32 := by simp [Addr.BitLen, hb4]
  have h16 : Addr.As16 ⟨b4, ""⟩ = v4InV6Prefix ++ b4 := by simp [Addr.As16, hb4]
  have hml : (CIDRMaskLoop 4 len).length = 4 := CIDRMaskLoop_length 4 len
  have hIPMask : IP.Mask (v4InV6Prefix ++ b4) (CIDRMaskLoop 4 len) =
      List.zipWith (· &&& ·) b4 (CIDRMaskLoop 4 len) := by
    have hpl : v4InV6Prefix.length = 12 := rfl
    have hlen16 : (v4InV6Prefix ++ b4).length = 16 := by simp [hpl, hb4]
    have htk : (v4InV6Prefix ++ b4).take 12 = v4InV6Prefix := by
      rw [← hpl]; simp
    have hdr : (v4InV6Prefix ++ b4).drop 12 = b4 := by
      rw [← hpl]; simp
    unfold IP.Mask
    simp only [hml, hlen16, htk, hdr]
    simp [hb4, hml]
  rw [hbit, h16, hmask, hIPMask]
  simp
  omega


theorem Contains_ipv4 (b4 a4 ip : List Nat) (len : Nat) (hb : b4.length = 4)
    (ha : IP.To4 ip = some a4) (ha4 : a4.length = 4) :
    IPNet.Contains ⟨List.zipWith (· &&& ·) b4 (CIDRMaskLoop 4 len), CIDRMaskLoop 4 len⟩ ip =
      containsLoop (List.zipWith (· &&& ·) b4 (CIDRMaskLoop 4 len)) (CIDRMaskLoop 4 len) a4 4 := by
  have hml : (CIDRMaskLoop 4 len).length = 4 := CIDRMaskLoop_length 4 len
  have hzl : (List.zipWith (· &&& ·) b4 (CIDRMaskLoop 4 len)).length = 4 := by
    simp [hb, hml]
  have hto4 : IP.To4 (List.zipWith (· &&& ·) b4 (CIDRMaskLoop 4 len)) =
      some (List.zipWith (· &&& ·) b4 (CIDRMaskLoop 4 len)) := by
    unfold IP.To4
    rw [if_pos hzl]
  have hnn : networkNumberAndMask
      ⟨List.zipWith (· &&& ·) b4 (CIDRMaskLoop 4 len), CIDRMaskLoop 4 len⟩ =
      (List.zipWith (· &&& ·) b4 (CIDRMaskLoop 4 len), CIDRMaskLoop 4 len) := by
    unfold networkNumberAndMask
    simp only [hto4, hml, hzl]
    simp
  unfold IPNet.Contains
  rw [hnn]
  simp only [ha, ha4, hzl]
  simp

/-! ## IPv4 ranges: masks as arithmetic -/

set_option maxRecDepth 100000 in
theorem land_maskByte :
    ∀ k, k < 9 → ∀ x, x < 256 → x &&& (0xff - (0xff >>> k)) = x / 2 ^ (8 - k) * 2 ^ (8 - k) := by
  decide


theorem CIDRMaskLoop_four (len : Nat) (hlen : len ≤ 32) :
    CIDRMaskLoop 4 len =
      [0xff - (0xff >>> min 8 len), 0xff - (0xff >>> min 8 (len - 8)),
       0xff - (0xff >>> min 8 (len - 16)), 0xff - (0xff >>> min 8 (len - 24))] := by
  interval_cases len <;> rfl

theorem land_maskByte_beq (k : Nat) (hk : k < 9) (a b : Nat) (ha : a < 256) (hb : b < 256) :
    (((b &&& (0xff - (0xff >>> k))) &&& (0xff - (0xff >>> k))) == (a &&& (0xff - (0xff >>> k))))
      = decide (b / 2 ^ (8 - k) = a / 2 ^ (8 - k)) := by
  rw [Nat.and_assoc, Nat.and_self, land_maskByte k hk a ha, land_maskByte k hk b hb]
  have hp : 0 < 2 ^ (8 - k) := Nat.two_pow_pos (8 - k)
  by_cases h : b / 2 ^ (8 - k) = a / 2 ^ (8 - k)
  · simp [h]
  · have : ¬ (b / 2 ^ (8 - k) * 2 ^ (8 - k) = a / 2 ^ (8 - k) * 2 ^ (8 - k)) := by
      intro e
      exact h (Nat.eq_of_mul_eq_mul_right hp e)
    simp [h, this]

set_option maxHeartbeats 4000000 in
theorem ipv4Value_div_iff (a0 a1 a2 a3 b0 b1 b2 b3 len : Nat)
    (ha0 : a0 < 256) (ha1 : a1 < 256) (ha2 : a2 < 256) (ha3 : a3 < 256)
    (hb0 : b0 < 256) (hb1 : b1 < 256) (hb2 : b2 < 256) (hb3 : b3 < 256) (hlen : len ≤ 32) :
    (b0 / 2 ^ (8 - min 8 len) = a0 / 2 ^ (8 - min 8 len) ∧
      b1 / 2 ^ (8 - min 8 (len - 8)) = a1 / 2 ^ (8 - min 8 (len - 8)) ∧
      b2 / 2 ^ (8 - min 8 (len - 16)) = a2 / 2 ^ (8 - min 8 (len - 16)) ∧
      b3 / 2 ^ (8 - min 8 (len - 24)) = a3 / 2 ^ (8 - min 8 (len - 24))) ↔
    (((a0 * 256 + a1) * 256 + a2) * 256 + a3) / 2 ^ (32 - len) =
      (((b0 * 256 + b1) * 256 + b2) * 256 + b3) / 2 ^ (32 - len) := by
  interval_cases len <;> norm_num <;> omega


theorem containsLoop_ipv4 (a0 a1 a2 a3 b0 b1 b2 b3 len : Nat)
    (ha0 : a0 < 256) (ha1 : a1 < 256) (ha2 : a2 < 256) (ha3 : a3 < 256)
    (hb0 : b0 < 256) (hb1 : b1 < 256) (hb2 : b2 < 256) (hb3 : b3 < 256) (hlen : len ≤ 32) :
    containsLoop (List.zipWith (· &&& ·) [b0, b1, b2, b3] (CIDRMaskLoop 4 len))
        (CIDRMaskLoop 4 len) [a0, a1, a2, a3] 4 = true ↔
      ipv4Value [a0, a1, a2, a3] / 2 ^ (32 - len) =
        ipv4Value [b0, b1, b2, b3] / 2 ^ (32 - len) := by
  rw [CIDRMaskLoop_four len hlen]
  have r4 : List.range 4 = [0, 1, 2, 3] := by decide
  have k0 : min 8 len < 9 := by omega
  have k1 : min 8 (len - 8) < 9 := by omega
  have k2 : min 8 (len - 16) < 9 := by omega
  have k3 : min 8 (len - 24) < 9 := by omega
  simp only [containsLoop, r4, List.all_cons, List.all_nil, List.zipWith_cons_cons,
    List.zipWith_nil_right, List.getD_cons_zero, List.getD_cons_succ, Bool.and_true,
    ipv4Value, List.foldl_cons, List.foldl_nil]
  rw [land_maskByte_beq _ k0 a0 b0 ha0 hb0, land_maskByte_beq _ k1 a1 b1 ha1 hb1,
    land_maskByte_beq _ k2 a2 b2 ha2 hb2, land_maskByte_beq _ k3 a3 b3 ha3 hb3]
  simp only [Bool.and_eq_true, decide_eq_true_eq, Nat.zero_mul, Nat.zero_add]
  exact ipv4Value_div_iff a0 a1 a2 a3 b0 b1 b2 b3 len ha0 ha1 ha2 ha3 hb0 hb1 hb2 hb3 hlen

theorem length_four (l : List Nat) (h : l.length = 4) : ∃ a b c d, l = [a, b, c, d] := by
  match l, h with
  | [a, b, c, d], _ => exact ⟨a, b, c, d, rfl⟩

theorem div_eq_iff_between (v w p : Nat) (hp : 0 < p) :
    v / p = w / p ↔ w / p * p ≤ v ∧ v ≤ w / p * p + (p - 1) := by
  constructor
  · intro h
    rw [← h]
    have h1 := Nat.div_mul_le_self v p
    have h2 := Nat.div_add_mod v p
    have h3 := Nat.mod_lt v hp
    have h4 : p * (v / p) = v / p * p := Nat.mul_comm _ _
    omega
  · rintro ⟨h1, h2⟩
    apply Nat.div_eq_of_lt_le
    · exact h1
    · rw [Nat.succ_mul]
      omega

/-! ## `ipAllowed`: general facts -/

/-- The rule loop answers `true` exactly when some rule matches, literally or as a
CIDR range containing the parsed address. -/
theorem ipAllowedLoop_eq_true_iff (c : String) (ip : IP) (rs : List String) :
    ipAllowedLoop c ip rs = true ↔
      ∃ r ∈ rs, TrimSpace r = c ∨
        ∃ n, ParseCIDR (TrimSpace r) = some n ∧ n.Contains ip = true := by
  induction rs with
  | nil => simp [ipAllowedLoop]
  | cons r rest ih =>
    unfold ipAllowedLoop
    by_cases h1 : TrimSpace r = c
    · simp [h1]
    · cases h2 : ParseCIDR (TrimSpace r) with
      | none => simp [h1, h2, ih]
      | some n =>
        by_cases h3 : n.Contains ip = true
        · simp [h1, h2, h3]
        · simp [h1, h2, h3, ih]

/-- With a parseable client address and at least one rule, `ipAllowed` is the
rule loop. -/
theorem ipAllowed_eq_loop (c : String) (ip : IP) (rs : List String)
    (hc : ParseIP c = some ip) (hrs : rs ≠ []) :
    ipAllowed c rs = ipAllowedLoop c ip rs := by
  cases rs with
  | nil => exact absurd rfl hrs
  | cons r rest => simp [ipAllowed, hc]

/-- With an unparseable client address, `ipAllowed` only looks at whether there are
rules at all. -/
theorem ipAllowed_unparseable (c : String) (rs : List String) (hc : ParseIP c = none) :
    ipAllowed c rs = rs.isEmpty := by
  cases rs with
  | nil => simp [ipAllowed]
  | cons r rest => simp [ipAllowed, hc]

/-! ## Claims C1 to C4 and C7 -/

/-- C1: for a client address `c` that parses as an IP address and a non-empty rule
list `rs`, `ipAllowed c rs` is `true` if and only if some rule `r` of `rs` has
`TrimSpace r` equal to `c`, or `TrimSpace r` parses as a CIDR range whose network
contains the parsed address of `c`; otherwise it is `false`. -/
theorem ipAllowed_iff_exists_rule (c : String) (ip : IP) (rs : List String)
    (hc : ParseIP c = some ip) (hrs : rs ≠ []) :
    (ipAllowed c rs = true ↔
      ∃ r ∈ rs, TrimSpace r = c ∨
        ∃ n, ParseCIDR (TrimSpace r) = some n ∧ n.Contains ip = true) ∧
    (ipAllowed c rs = false ↔
      ¬ ∃ r ∈ rs, TrimSpace r = c ∨
        ∃ n, ParseCIDR (TrimSpace r) = some n ∧ n.Contains ip = true) := by
  rw [ipAllowed_eq_loop c ip rs hc hrs, ← ipAllowedLoop_eq_true_iff]
  simp

theorem ipAllowed_iff_exists_rule_witness :
    (ipAllowed "10.2.3.4" ["192.168.0.1", " 10.0.0.0/8 "] = true ↔
      ∃ r ∈ ["192.168.0.1", " 10.0.0.0/8 "], TrimSpace r = "10.2.3.4" ∨
        ∃ n, ParseCIDR (TrimSpace r) = some n ∧
          n.Contains [0, 0, 0, 0, 0, 0, 0, 0, 0, 0, 255, 255, 10, 2, 3, 4] = true) ∧
    (ipAllowed "10.2.3.4" ["192.168.0.1", " 10.0.0.0/8 "] = false ↔
      ¬ ∃ r ∈ ["192.168.0.1", " 10.0.0.0/8 "], TrimSpace r = "10.2.3.4" ∨
        ∃ n, ParseCIDR (TrimSpace r) = some n ∧
          n.Contains [0, 0, 0, 0, 0, 0, 0, 0, 0, 0, 255, 255, 10, 2, 3, 4] = true) :=
  ipAllowed_iff_exists_rule "10.2.3.4" [0, 0, 0, 0, 0, 0, 0, 0, 0, 0, 255, 255, 10, 2, 3, 4]
    ["192.168.0.1", " 10.0.0.0/8 "] (by decide) (by decide)

/-- C2: for every client address string `c`, parseable or not, `ipAllowed c []` is
`true`: an empty allow-rule sequence permits every address. -/
theorem ipAllowed_nil (c : String) : ipAllowed c [] = true := by
  simp [ipAllowed]

/-- C3: for a client address `c` that does not parse as an IP address and a
non-empty rule list `rs`, `ipAllowed c rs` is `false`, whatever the rules are (the
empty string, a malformed rule, a rule textually identical to `c`). -/
theorem ipAllowed_unparseable_nonempty (c : String) (rs : List String)
    (hc : ParseIP c = none) (hrs : rs ≠ []) : ipAllowed c rs = false := by
  rw [ipAllowed_unparseable c rs hc]
  cases rs with
  | nil => exact absurd rfl hrs
  | cons r rest => rfl

theorem ipAllowed_unparseable_nonempty_witness :
    ipAllowed "gopher" ["", "10.0.0.0/40", "gopher"] = false :=
  ipAllowed_unparseable_nonempty "gopher" ["", "10.0.0.0/40", "gopher"] (by decide) (by decide)

/-- C4, as stated, fails: the empty string does not parse as an IP address, yet
with the empty rule sequence it is permitted. -/
theorem ipAllowed_empty_address_nil :
    ParseIP "" = none ∧ ipAllowed "" [] = true := by
  decide

/-- C4, amended: the empty string does not parse as an IP address, and for every
client address `c` that fails to parse, `ipAllowed c rs` is `false` for every
non-empty rule sequence `rs` and `true` for the empty one. -/
theorem ipAllowed_unparseable_iff :
    ParseIP "" = none ∧
    ∀ (c : String) (rs : List String), ParseIP c = none →
      (ipAllowed c rs = false ↔ rs ≠ []) ∧ (ipAllowed c rs = true ↔ rs = []) := by
  refine ⟨by decide, ?_⟩
  intro c rs hc
  rw [ipAllowed_unparseable c rs hc]
  cases rs <;> simp

theorem ipAllowed_unparseable_iff_witness :
    (ipAllowed "" ["10.0.0.0/8", ""] = false ↔ ["10.0.0.0/8", ""] ≠ []) ∧
    (ipAllowed "" ["10.0.0.0/8", ""] = true ↔ ["10.0.0.0/8", ""] = []) :=
  ipAllowed_unparseable_iff.2 "" ["10.0.0.0/8", ""] (by decide)

/-- C7: for every client address string `c` and rule lists `rs`, `rs2` that are
permutations of each other, `ipAllowed c rs = ipAllowed c rs2`: rule order does not
affect the outcome. -/
theorem ipAllowed_perm (c : String) (rs rs2 : List String) (h : rs.Perm rs2) :
    ipAllowed c rs = ipAllowed c rs2 := by
  cases hc : ParseIP c with
  | none =>
    rw [ipAllowed_unparseable c rs hc, ipAllowed_unparseable c rs2 hc]
    cases rs with
    | nil => rw [List.nil_perm.mp h]
    | cons r rest =>
      cases rs2 with
      | nil => exact absurd (List.perm_nil.mp h) (by simp)
      | cons r2 rest2 => rfl
  | some ip =>
    cases rs with
    | nil => rw [List.nil_perm.mp h]
    | cons r rest =>
      have h2 : rs2 ≠ [] := by
        intro h0
        rw [h0] at h
        exact absurd (List.perm_nil.mp h) (by simp)
      rw [ipAllowed_eq_loop c ip _ hc (by simp), ipAllowed_eq_loop c ip _ hc h2,
        Bool.eq_iff_iff, ipAllowedLoop_eq_true_iff, ipAllowedLoop_eq_true_iff]
      constructor
      · rintro ⟨x, hx, hm⟩
        exact ⟨x, h.mem_iff.mp hx, hm⟩
      · rintro ⟨x, hx, hm⟩
        exact ⟨x, h.mem_iff.mpr hx, hm⟩

theorem ipAllowed_perm_witness :
    ipAllowed "10.2.3.4" ["192.168.0.1", "10.0.0.0/8", "bad"] =
      ipAllowed "10.2.3.4" ["bad", "192.168.0.1", "10.0.0.0/8"] :=
  ipAllowed_perm "10.2.3.4" ["192.168.0.1", "10.0.0.0/8", "bad"]
    ["bad", "192.168.0.1", "10.0.0.0/8"] (by decide)

/-! ## Claims C5 and C6 -/

/-- C5: for every rule `R` that, trimmed, reads `base/len` with `base` a dotted
IPv4 address and `len` a decimal prefix length of at most 32, and every client
address `A` that parses to an IPv4 address, `ipAllowed A [R]` is `true` if and only
if the 32-bit value of `A` agrees with `base` on its top `len` bits, equivalently
lies between the network address and the last address of the block. -/
theorem ipAllowed_ipv4_cidr (A R : String) (ip a4 b4 : List Nat)
    (baseStr lenStr : List Char) (len : Nat)
    (hA : ParseIP A = some ip) (hA4 : IP.To4 ip = some a4)
    (hR : (TrimSpace R).data = baseStr ++ '/' :: lenStr)
    (hbase : parseIPv4Fields baseStr = some b4)
    (hlen : dtoi lenStr = (len, lenStr.length, true)) (hle : len ≤ 32) :
    (ipAllowed A [R] = true ↔
      ipv4Value a4 / 2 ^ (32 - len) = ipv4Value b4 / 2 ^ (32 - len)) ∧
    (ipAllowed A [R] = true ↔
      ipv4Value b4 / 2 ^ (32 - len) * 2 ^ (32 - len) ≤ ipv4Value a4 ∧
      ipv4Value a4 ≤ ipv4Value b4 / 2 ^ (32 - len) * 2 ^ (32 - len) + (2 ^ (32 - len) - 1)) := by
  have hne : ¬ TrimSpace R = A := by
    intro e
    have hmem : '/' ∈ A.data := by
      rw [← e, hR]
      simp
    exact addrChar_ne_slash _ (ParseIP_chars A ip hA _ hmem) rfl
  obtain ⟨hb4b, hb4l⟩ := parseIPv4Fields_bytes baseStr b4 hbase
  obtain ⟨ha4l, ha4b⟩ := To4_spec ip a4 hA4 (ParseIP_bytes A ip hA)
  have hcidr := ParseCIDR_ipv4 (TrimSpace R) baseStr lenStr b4 len hR hbase hlen hle
  have hall : ipAllowed A [R] =
      containsLoop (List.zipWith (· &&& ·) b4 (CIDRMaskLoop 4 len)) (CIDRMaskLoop 4 len) a4 4 := by
    rw [ipAllowed_eq_loop A ip [R] hA (by simp)]
    unfold ipAllowedLoop
    rw [if_neg hne]
    simp only [hcidr, Contains_ipv4 b4 a4 ip len hb4l hA4 ha4l, ipAllowedLoop]
    simp
  obtain ⟨a0, a1, a2, a3, rfl⟩ := length_four a4 ha4l
  obtain ⟨b0, b1, b2, b3, rfl⟩ := length_four b4 hb4l
  have key := containsLoop_ipv4 a0 a1 a2 a3 b0 b1 b2 b3 len
    (ha4b a0 (by simp)) (ha4b a1 (by simp)) (ha4b a2 (by simp)) (ha4b a3 (by simp))
    (hb4b b0 (by simp)) (hb4b b1 (by simp)) (hb4b b2 (by simp)) (hb4b b3 (by simp)) hle
  rw [hall]
  exact ⟨key, key.trans (div_eq_iff_between _ _ _ (Nat.two_pow_pos _))⟩

theorem ipAllowed_ipv4_cidr_witness :
    ipAllowed "10.2.3.4" ["10.0.0.0/8"] = true ∧
    ipAllowed "192.168.1.1" ["10.0.0.0/8"] = false :=
  ⟨(ipAllowed_ipv4_cidr "10.2.3.4" "10.0.0.0/8"
      [0, 0, 0, 0, 0, 0, 0, 0, 0, 0, 255, 255, 10, 2, 3, 4] [10, 2, 3, 4] [10, 0, 0, 0]
      "10.0.0.0".data "8".data 8
      (by decide) (by decide) (by decide) (by decide) (by decide) (by decide)).1.mpr (by decide),
   Bool.eq_false_iff.mpr (fun h =>
    absurd ((ipAllowed_ipv4_cidr "192.168.1.1" "10.0.0.0/8"
      [0, 0, 0, 0, 0, 0, 0, 0, 0, 0, 255, 255, 192, 168, 1, 1] [192, 168, 1, 1] [10, 0, 0, 0]
      "10.0.0.0".data "8".data 8
      (by decide) (by decide) (by decide) (by decide) (by decide) (by decide)).1.mp h)
      (by decide))⟩

/-- C6, as stated, fails: a client address that is not an IP address is denied
even when a rule is string-for-string equal to it. -/
theorem ipAllowed_literal_unparseable :
    "gopher" ∈ ["gopher"] ∧ ["gopher"] ≠ [] ∧ ipAllowed "gopher" ["gopher"] = false := by
  decide

/-- C6, amended: for every client address `c` that parses as an IP address and
every rule list `rs` containing a rule string-for-string equal to `c`,
`ipAllowed c rs` is `true`, whatever the other rules are and wherever the matching
rule stands. -/
theorem ipAllowed_literal (c : String) (ip : IP) (rs : List String)
    (hc : ParseIP c = some ip) (hmem : c ∈ rs) : ipAllowed c rs = true := by
  have hrs : rs ≠ [] := List.ne_nil_of_mem hmem
  rw [ipAllowed_eq_loop c ip rs hc hrs, ipAllowedLoop_eq_true_iff]
  exact ⟨c, hmem, Or.inl (TrimSpace_of_ParseIP c ip hc)⟩

theorem ipAllowed_literal_witness :
    ipAllowed "2001:db8::1" ["bad rule", "10.0.0.0/8", "2001:db8::1", "192.168.0.1"] = true :=
  ipAllowed_literal "2001:db8::1" [32, 1, 13, 184, 0, 0, 0, 0, 0, 0, 0, 0, 0, 0, 0, 1]
    ["bad rule", "10.0.0.0/8", "2001:db8::1", "192.168.0.1"] (by decide) (by decide)

/-! ## `realIP` -/

/-- Cutting at a one-character separator: with no occurrence, nothing is cut. -/
theorem Index_single_none (c : Char) (l : List Char) (h : Index [c] l = none) :
    l.takeWhile (fun x => x ≠ c) = l := by
  induction l with
  | nil => rfl
  | cons x rest ih =>
    unfold Index at h
    by_cases hx : c = x
    · simp [List.isPrefixOf, hx] at h
    · have hx2 : ¬ x = c := fun e => hx e.symm
      simp [List.isPrefixOf, hx] at h
      have hd : decide (x ≠ c) = true := by simp [hx2]
      rw [List.takeWhile_cons, if_pos hd, ih h]

/-- Cutting at a one-character separator: the piece before the first occurrence is
the longest prefix without the separator. -/
theorem Index_single_some (c : Char) (l : List Char) (m : Nat) (h : Index [c] l = some m) :
    l.take m = l.takeWhile (fun x => x ≠ c) := by
  induction l generalizing m with
  | nil => simp [Index] at h
  | cons x rest ih =>
    unfold Index at h
    by_cases hx : c = x
    · simp [List.isPrefixOf, hx] at h
      subst h
      simp [List.takeWhile, hx]
    · have hx2 : ¬ x = c := fun e => hx e.symm
      simp [List.isPrefixOf, hx] at h
      obtain ⟨k, hk, rfl⟩ := h
      have hd : decide (x ≠ c) = true := by simp [hx2]
      rw [List.takeWhile_cons, if_pos hd, List.take_succ_cons, ih k hk]

/-- The pieces of `genSplitLoop` at a one-character separator start with the text
before the first separator. -/
theorem genSplitLoop_single_head (c : Char) (n : Nat) (l : List Char) :
    ∃ tl, genSplitLoop [c] (n + 1) l = l.takeWhile (fun x => x ≠ c) :: tl := by
  cases h : Index [c] l with
  | none =>
    refine ⟨[], ?_⟩
    simp only [genSplitLoop, h]
    rw [Index_single_none c l h]
  | some m =>
    refine ⟨genSplitLoop [c] n (l.drop (m + [c].length)), ?_⟩
    simp only [genSplitLoop, h]
    rw [Index_single_some c l m h]

/-- On a non-empty string, `SplitN s "," 2` starts with the text of `s` before its
first comma. -/
theorem SplitN_comma_head (s : String) (hs : s ≠ "") :
    ∃ tl, SplitN s "," 2 = String.mk (s.data.takeWhile (fun x => x ≠ ',')) :: tl := by
  have hlen : ¬ (2 > s.data.length + 1) := by
    cases hd : s.data with
    | nil => exact absurd (String.ext hd) hs
    | cons x rest => simp
  obtain ⟨tl, htl⟩ := genSplitLoop_single_head ',' 0 s.data
  refine ⟨tl.map String.mk, ?_⟩
  have hsep : (",".data : List Char) = [','] := rfl
  simp only [SplitN, hlen, if_false, hsep]
  simpa using congrArg (List.map String.mk) htl

/-- `realIP` never panics: `SplitN` on a non-empty string has a first piece. -/
theorem realIP_isSome (r : Request) : ∃ ip, realIP r = some ip := by
  unfold realIP
  by_cases h1 : r.Header.Get "CF-Connecting-IP" ≠ ""
  · exact ⟨_, by rw [if_pos h1]⟩
  · rw [if_neg h1]
    by_cases h2 : r.Header.Get "X-Forwarded-For" ≠ ""
    · obtain ⟨tl, htl⟩ := SplitN_comma_head _ h2
      rw [if_pos h2]
      simp only [htl]
      exact ⟨_, rfl⟩
    · rw [if_neg h2]
      by_cases h3 : r.Header.Get "X-Real-IP" ≠ ""
      · exact ⟨_, by rw [if_pos h3]⟩
      · rw [if_neg h3]
        cases SplitHostPort r.RemoteAddr with
        | none => exact ⟨_, rfl⟩
        | some hp => exact ⟨_, rfl⟩

/-! ## Claims C8 to C10 -/

/-- C8: for every request whose `CF-Connecting-IP` header is non-empty, `realIP`
returns that header's value trimmed of surrounding white space, whatever
`X-Forwarded-For`, `X-Real-IP` and `RemoteAddr` are: two requests with the same
non-empty `CF-Connecting-IP` value resolve to the same address. -/
theorem realIP_cf_connecting_ip :
    (∀ r : Request, r.Header.Get "CF-Connecting-IP" ≠ "" →
      realIP r = some (TrimSpace (r.Header.Get "CF-Connecting-IP"))) ∧
    (∀ r r2 : Request, r.Header.Get "CF-Connecting-IP" ≠ "" →
      r2.Header.Get "CF-Connecting-IP" = r.Header.Get "CF-Connecting-IP" →
      realIP r2 = realIP r) := by
  have key : ∀ r : Request, r.Header.Get "CF-Connecting-IP" ≠ "" →
      realIP r = some (TrimSpace (r.Header.Get "CF-Connecting-IP")) := by
    intro r h
    unfold realIP
    rw [if_pos h]
  refine ⟨key, ?_⟩
  intro r r2 h heq
  rw [key r h, key r2 (by rw [heq]; exact h), heq]

theorem realIP_cf_connecting_ip_witness :
    reqAllHeaders.Header.Get "CF-Connecting-IP" ≠ "" ∧
    realIP reqAllHeaders = some "198.51.100.7" :=
  ⟨by decide, (realIP_cf_connecting_ip.1 reqAllHeaders (by decide)).trans (by decide)⟩

/-- C9: for every request whose `CF-Connecting-IP` header is empty and whose
`X-Forwarded-For` header is non-empty, `realIP` returns the text of
`X-Forwarded-For` before its first comma (all of it when there is no comma),
trimmed of surrounding white space, whatever `X-Real-IP` and `RemoteAddr` are. -/
theorem realIP_x_forwarded_for (r : Request)
    (hcf : r.Header.Get "CF-Connecting-IP" = "")
    (hxff : r.Header.Get "X-Forwarded-For" ≠ "") :
    realIP r = some (TrimSpace
      (String.mk ((r.Header.Get "X-Forwarded-For").data.takeWhile (fun x => x ≠ ',')))) := by
  obtain ⟨tl, htl⟩ := SplitN_comma_head _ hxff
  unfold realIP
  rw [if_neg (by simp [hcf]), if_pos hxff]
  simp only [htl]

theorem realIP_x_forwarded_for_witness :
    realIP reqForwarded = some "203.0.113.5" :=
  (realIP_x_forwarded_for reqForwarded (by decide) (by decide)).trans (by decide)

/-- C10: for every mapping, host and request whose path is a key of the mapping,
`realIP` yields an address `ip`, and `handle` answers `Denied` (a 302 redirect to
the fixed target `https://yuanc.com`) if and only if `ipAllowed ip entry.Allows` is
`false`; otherwise it answers `Permit` with the entry's `Repo` and `Display`
unchanged. -/
theorem handle_denied_iff (m : Mapping) (host : String) (r : Request) (conf : Entry)
    (hm : m r.Path = some conf) :
    ∃ ip, realIP r = some ip ∧
      ((∃ lg, handle m host r = some (Decision.Denied 302 "https://yuanc.com" lg)) ↔
        ipAllowed ip conf.Allows = false) ∧
      (ipAllowed ip conf.Allows = true →
        ∃ imp, handle m host r = some (Decision.Permit imp conf.Repo conf.Display)) := by
  obtain ⟨ip, hip⟩ := realIP_isSome r
  refine ⟨ip, hip, ?_, ?_⟩
  · cases ha : ipAllowed ip conf.Allows <;> simp [handle, hm, hip, ha]
  · intro ha
    exact ⟨TrimRight host "/" ++ "/" ++ TrimLeft r.Path "/", by simp [handle, hm, hip, ha]⟩

theorem handle_denied_iff_witness :
    handle secretMapping "example.com/" reqSecret =
      some (Decision.Denied 302 "https://yuanc.com" "Forbidden: 203.0.113.9 → /secret") ∧
    ∃ ip, realIP reqSecret = some ip ∧
      ((∃ lg, handle secretMapping "example.com/" reqSecret =
          some (Decision.Denied 302 "https://yuanc.com" lg)) ↔
        ipAllowed ip ["198.51.100.0/24"] = false) ∧
      (ipAllowed ip ["198.51.100.0/24"] = true →
        ∃ imp, handle secretMapping "example.com/" reqSecret =
          some (Decision.Permit imp "https://github.com/acme/secret" "")) :=
  ⟨by decide,
    handle_denied_iff secretMapping "example.com/" reqSecret
      { Repo := "https://github.com/acme/secret", Display := "",
        Allows := ["198.51.100.0/24"] } (by decide)⟩


/-! ## Slashes of the import path -/

theorem dropWhile_replicate_append (f : Char → Bool) (c : Char) (hc : f c = true) (n : Nat)
    (l : List Char) : (List.replicate n c ++ l).dropWhile f = l.dropWhile f := by
  induction n with
  | zero => rfl
  | succ k ih => simp [List.replicate_succ, List.dropWhile_cons, hc, ih]

theorem trimRightFunc_append_replicate (f : Char → Bool) (c : Char) (hc : f c = true)
    (n : Nat) (l : List Char) :
    trimRightFunc f (l ++ List.replicate n c) = trimRightFunc f l := by
  unfold trimRightFunc
  rw [List.reverse_append, List.reverse_replicate, dropWhile_replicate_append f c hc]

theorem trimRightFunc_getLast (f : Char → Bool) (l : List Char) (c : Char)
    (h : (trimRightFunc f l).getLast? = some c) : f c = false := by
  unfold trimRightFunc at h
  rw [List.getLast?_reverse] at h
  cases hd : l.reverse.dropWhile f with
  | nil => rw [hd] at h; simp at h
  | cons x rest =>
    rw [hd] at h
    simp only [List.head?_cons, Option.some.injEq] at h
    subst h
    have := List.head_dropWhile_not f l.reverse (by rw [hd]; simp)
    simpa [hd] using this

theorem trimLeftFunc_head (f : Char → Bool) (l : List Char) (c : Char)
    (h : (trimLeftFunc f l).head? = some c) : f c = false := by
  unfold trimLeftFunc at h
  cases hd : l.dropWhile f with
  | nil => rw [hd] at h; simp at h
  | cons x rest =>
    rw [hd] at h
    simp only [List.head?_cons, Option.some.injEq] at h
    subst h
    have := List.head_dropWhile_not f l (by rw [hd]; simp)
    simpa [hd] using this

theorem slash_in_cutset : (fun c => ("/".data).contains c) '/' = true := by decide

theorem TrimRight_append_slashes (h : String) (n : Nat) :
    TrimRight (h ++ ⟨List.replicate n '/'⟩) "/" = TrimRight h "/" := by
  unfold TrimRight
  rw [String.data_append]
  exact congrArg String.mk (trimRightFunc_append_replicate _ '/' slash_in_cutset n h.data)

theorem TrimLeft_slashes_append (p : String) (n : Nat) :
    TrimLeft (⟨List.replicate n '/'⟩ ++ p) "/" = TrimLeft p "/" := by
  unfold TrimLeft trimLeftFunc
  rw [String.data_append]
  exact congrArg String.mk (dropWhile_replicate_append _ '/' slash_in_cutset n p.data)

theorem TrimRight_mainHost (h : String) : TrimRight (mainHost h) "/" = TrimRight h "/" := by
  unfold mainHost
  split_ifs
  · rfl
  · exact TrimRight_append_slashes h 1

/-! ## Claims C11 and C12 -/

/-- C11: for every mapping and every request whose path is not a key of the
mapping, `handle` answers `NotFound`, whatever the headers and `RemoteAddr` are.
The lookup is an exact string match: with a single key, every path that is not
string-equal to it (one more slash, another letter case) is `NotFound`. -/
theorem handle_not_found :
    (∀ (m : Mapping) (host : String) (r : Request), m r.Path = none →
      handle m host r = some Decision.NotFound) ∧
    (∀ (key : String) (e : Entry) (host : String) (r : Request), r.Path ≠ key →
      handle (singleMapping key e) host r = some Decision.NotFound) := by
  have key : ∀ (m : Mapping) (host : String) (r : Request), m r.Path = none →
      handle m host r = some Decision.NotFound := by
    intro m host r hm
    simp [handle, hm]
  refine ⟨key, ?_⟩
  intro k e host r hne
  exact key _ host r (by simp [singleMapping, hne])

theorem handle_not_found_witness :
    handle (singleMapping "/pkg/foo" fooEntry) "example.com/" reqTrailingSlash =
      some Decision.NotFound ∧
    handle (singleMapping "/pkg/foo" fooEntry) "example.com/" reqUpperCase =
      some Decision.NotFound ∧
    handle (singleMapping "/pkg/foo" fooEntry) "example.com/" reqDirect ≠
      some Decision.NotFound :=
  ⟨handle_not_found.2 "/pkg/foo" fooEntry "example.com/" reqTrailingSlash (by decide),
    handle_not_found.2 "/pkg/foo" fooEntry "example.com/" reqUpperCase (by decide),
    by decide⟩

/-- C12: for every host `h` and permitted request path `p`, the import path handed
to the template is `TrimRight(h, "/") + "/" + TrimLeft(p, "/")`; its host part does
not end in a slash and its path part does not start with one, so the two are joined
by exactly one slash; and the two parts do not change when trailing slashes are
added to `h` (as `main` does) or leading slashes to `p`. -/
theorem handle_import_path (m : Mapping) (host : String) (r : Request) (conf : Entry)
    (ip : String) (hm : m r.Path = some conf) (hip : realIP r = some ip)
    (hok : ipAllowed ip conf.Allows = true) :
    handle m host r =
      some (Decision.Permit (TrimRight host "/" ++ "/" ++ TrimLeft r.Path "/")
        conf.Repo conf.Display) ∧
    (TrimRight host "/").data.getLast? ≠ some '/' ∧
    (TrimLeft r.Path "/").data.head? ≠ some '/' ∧
    (∀ n, TrimRight (host ++ ⟨List.replicate n '/'⟩) "/" = TrimRight host "/") ∧
    TrimRight (mainHost host) "/" = TrimRight host "/" ∧
    (∀ n, TrimLeft (⟨List.replicate n '/'⟩ ++ r.Path) "/" = TrimLeft r.Path "/") := by
  refine ⟨by simp [handle, hm, hip, hok], ?_, ?_, TrimRight_append_slashes host,
    TrimRight_mainHost host, TrimLeft_slashes_append r.Path⟩
  · intro h
    have := trimRightFunc_getLast _ _ _ h
    simp at this
  · intro h
    have := trimLeftFunc_head _ _ _ h
    simp at this

theorem handle_import_path_witness :
    handle (singleMapping "/pkg/foo" fooEntry) (mainHost "example.com") reqDirect =
      some (Decision.Permit "example.com/pkg/foo" "https://github.com/acme/foo" "") :=
  (handle_import_path (singleMapping "/pkg/foo" fooEntry) (mainHost "example.com") reqDirect
    fooEntry "192.0.2.10" (by decide) (by decide) (by decide)).1.trans (by decide)

/-! ## `realIP`: header priority and fallback -/

/-- The four branches of `realIP`. -/
theorem realIP_cases (r : Request) :
    (r.Header.Get "CF-Connecting-IP" ≠ "" →
      realIP r = some (TrimSpace (r.Header.Get "CF-Connecting-IP"))) ∧
    (r.Header.Get "CF-Connecting-IP" = "" → r.Header.Get "X-Forwarded-For" ≠ "" →
      realIP r = some (TrimSpace
        (String.mk ((r.Header.Get "X-Forwarded-For").data.takeWhile (fun x => x ≠ ','))))) ∧
    (r.Header.Get "CF-Connecting-IP" = "" → r.Header.Get "X-Forwarded-For" = "" →
      r.Header.Get "X-Real-IP" ≠ "" →
      realIP r = some (TrimSpace (r.Header.Get "X-Real-IP"))) ∧
    (r.Header.Get "CF-Connecting-IP" = "" → r.Header.Get "X-Forwarded-For" = "" →
      r.Header.Get "X-Real-IP" = "" → realIP r = some (peerHost r)) := by
  refine ⟨?_, ?_, ?_, ?_⟩
  · intro h1
    unfold realIP
    rw [if_pos h1]
  · intro h1 h2
    obtain ⟨tl, htl⟩ := SplitN_comma_head _ h2
    unfold realIP
    rw [if_neg (by simp [h1]), if_pos h2]
    simp only [htl]
  · intro h1 h2 h3
    unfold realIP
    rw [if_neg (by simp [h1]), if_neg (by simp [h2]), if_pos h3]
  · intro h1 h2 h3
    unfold realIP peerHost
    rw [if_neg (by simp [h1]), if_neg (by simp [h2]), if_neg (by simp [h3])]
    cases SplitHostPort r.RemoteAddr with
    | none => rfl
    | some hp => rfl

theorem TrimSpace_empty : TrimSpace "" = "" := by decide

theorem IndexByte_eq_none (c : Char) (l : List Char) (h : c ∉ l) : IndexByte c l = none := by
  induction l with
  | nil => rfl
  | cons x rest ih =>
    have hx : ¬ x = c := fun e => h (by simp [e])
    simp [IndexByte, hx, ih (fun e => h (List.mem_cons_of_mem _ e))]

theorem LastIndexByte_eq_none (c : Char) (l : List Char) (h : c ∉ l) :
    LastIndexByte c l = none := by
  induction l with
  | nil => rfl
  | cons x rest ih =>
    have hx : ¬ x = c := fun e => h (by simp [e])
    simp [LastIndexByte, hx, ih (fun e => h (List.mem_cons_of_mem _ e))]

theorem LastIndexByte_append (c : Char) (pre post : List Char) (h : c ∉ post) :
    LastIndexByte c (pre ++ c :: post) = some pre.length := by
  induction pre with
  | nil => simp [LastIndexByte, LastIndexByte_eq_none c post h]
  | cons x rest ih => simp [LastIndexByte, ih]

/-- An address `host:port` without brackets, and without a colon inside the host or
the port, splits into its two parts. -/
theorem SplitHostPort_plain (h p : List Char)
    (hh : ∀ c ∈ h, c ≠ ':' ∧ c ≠ '[' ∧ c ≠ ']')
    (hp : ∀ c ∈ p, c ≠ ':' ∧ c ≠ '[' ∧ c ≠ ']') :
    SplitHostPort ⟨h ++ ':' :: p⟩ = some (⟨h⟩, ⟨p⟩) := by
  have hmem : ∀ c, c ≠ ':' → (∀ x ∈ h, x ≠ c) → (∀ x ∈ p, x ≠ c) → c ∉ h ++ ':' :: p := by
    intro c hc h1 h2 hin
    rcases List.mem_append.mp hin with hin | hin
    · exact h1 c hin rfl
    · rcases List.mem_cons.mp hin with e | hin
      · exact hc e
      · exact h2 c hin rfl
  have hlast := LastIndexByte_append ':' h p (fun e => (hp _ e).1 rfl)
  have hcol : IndexByte ':' h = none := IndexByte_eq_none _ _ (fun e => (hh _ e).1 rfl)
  have hlb : IndexByte '[' (h ++ ':' :: p) = none :=
    IndexByte_eq_none _ _ (hmem '[' (by decide) (fun x hx => (hh x hx).2.1)
      (fun x hx => (hp x hx).2.1))
  have hrb : IndexByte ']' (h ++ ':' :: p) = none :=
    IndexByte_eq_none _ _ (hmem ']' (by decide) (fun x hx => (hh x hx).2.2)
      (fun x hx => (hp x hx).2.2))
  have hhead : ¬ (h ++ ':' :: p).head? = some '[' := by
    cases h with
    | nil => simp
    | cons x rest =>
      simp only [List.cons_append, List.head?_cons, Option.some.injEq]
      exact (hh x (List.mem_cons_self _ _)).2.1
  have htake : (h ++ ':' :: p).take h.length = h := by simp
  have hdrop : (h ++ ':' :: p).drop (h.length + 1) = p := by
    rw [← List.drop_drop]
    simp
  unfold SplitHostPort
  simp only [hlast, hhead, if_false, htake, hdrop, hcol, hlb, hrb, Option.isSome_none]
  simp

/-! ## Claims C13 and C14 -/

/-- C13, as stated, fails: with `X-Forwarded-For: , 203.0.113.5` and
`X-Real-IP: 192.0.2.44`, `realIP` returns the empty first element of the chain,
while the first non-empty candidate is `192.0.2.44`. -/
theorem realIP_empty_first_hop :
    realIP reqEmptyFirstHop = some "" ∧
    firstNonEmptyCandidate reqEmptyFirstHop = "192.0.2.44" ∧
    realIP reqEmptyFirstHop ≠ some (firstNonEmptyCandidate reqEmptyFirstHop) := by
  decide

/-- C13, amended: for every request, `realIP` returns the candidate of the first
header, in the order `CF-Connecting-IP`, `X-Forwarded-For`, `X-Real-IP`, whose value
is non-empty (the trimmed value, for `X-Forwarded-For` the trimmed text before the
first comma), also when that candidate is empty; when all three header values are
empty it returns the host of the transport peer address.  When every non-empty
header yields a non-empty candidate, this is the first non-empty candidate. -/
theorem realIP_first_nonempty_header (r : Request) :
    (r.Header.Get "CF-Connecting-IP" ≠ "" →
      realIP r = some (TrimSpace (r.Header.Get "CF-Connecting-IP"))) ∧
    (r.Header.Get "CF-Connecting-IP" = "" → r.Header.Get "X-Forwarded-For" ≠ "" →
      realIP r = some (TrimSpace
        (String.mk ((r.Header.Get "X-Forwarded-For").data.takeWhile (fun x => x ≠ ','))))) ∧
    (r.Header.Get "CF-Connecting-IP" = "" → r.Header.Get "X-Forwarded-For" = "" →
      r.Header.Get "X-Real-IP" ≠ "" →
      realIP r = some (TrimSpace (r.Header.Get "X-Real-IP"))) ∧
    (r.Header.Get "CF-Connecting-IP" = "" → r.Header.Get "X-Forwarded-For" = "" →
      r.Header.Get "X-Real-IP" = "" → realIP r = some (peerHost r)) ∧
    ((r.Header.Get "CF-Connecting-IP" ≠ "" → TrimSpace (r.Header.Get "CF-Connecting-IP") ≠ "") →
      (r.Header.Get "X-Forwarded-For" ≠ "" → TrimSpace
        (String.mk ((r.Header.Get "X-Forwarded-For").data.takeWhile (fun x => x ≠ ','))) ≠ "") →
      (r.Header.Get "X-Real-IP" ≠ "" → TrimSpace (r.Header.Get "X-Real-IP") ≠ "") →
      realIP r = some (firstNonEmptyCandidate r)) := by
  obtain ⟨c1, c2, c3, c4⟩ := realIP_cases r
  refine ⟨c1, c2, c3, c4, ?_⟩
  intro g1 g2 g3
  have hpos : ∀ (x : String) (l : List String), x ≠ "" →
      List.find? (fun c => decide (c ≠ "")) (x :: l) = some x := by
    intro x l hx
    exact List.find?_cons_of_pos l (by simpa using hx)
  have hneg : ∀ (l : List String),
      List.find? (fun c => decide (c ≠ "")) (TrimSpace "" :: l) =
        List.find? (fun c => decide (c ≠ "")) l := by
    intro l
    exact List.find?_cons_of_neg l (by simp [TrimSpace_empty])
  have hnil : (String.mk (("" : String).data.takeWhile (fun x => x ≠ ','))) = "" := rfl
  unfold firstNonEmptyCandidate candidates
  by_cases h1 : r.Header.Get "CF-Connecting-IP" = ""
  · by_cases h2 : r.Header.Get "X-Forwarded-For" = ""
    · by_cases h3 : r.Header.Get "X-Real-IP" = ""
      · rw [c4 h1 h2 h3, h1, h2, h3, hnil, hneg, hneg, hneg]
        rfl
      · rw [c3 h1 h2 h3, h1, h2, hnil, hneg, hneg, hpos _ _ (g3 h3)]
    · rw [c2 h1 h2, h1, hneg, hpos _ _ (g2 h2)]
  · rw [c1 h1, hpos _ _ (g1 h1)]

theorem realIP_first_nonempty_header_witness :
    realIP reqEmptyFirstHop = some "" ∧ realIP reqForwarded = some "203.0.113.5" ∧
    firstNonEmptyCandidate reqForwarded = "203.0.113.5" :=
  ⟨((realIP_first_nonempty_header reqEmptyFirstHop).2.1 (by decide) (by decide)).trans
      (by decide),
    ((realIP_first_nonempty_header reqForwarded).2.2.2.2 (by decide) (by decide)
      (by decide)).trans (by decide),
    by decide⟩

/-- C14: `realIP` is total (no panic, in particular not on `parts[0]`), and for
every request whose `CF-Connecting-IP` and `X-Forwarded-For` headers are empty: a
non-empty `X-Real-IP` is returned trimmed; with `X-Real-IP` empty too, the result is
the host that `SplitHostPort` cuts from `RemoteAddr` (for an address `host:port`
without brackets or further colons, the text before the colon), and the empty string
when `RemoteAddr` cannot be split. -/
theorem realIP_total_fallback :
    (∀ r : Request, ∃ ip, realIP r = some ip) ∧
    (∀ r : Request, r.Header.Get "CF-Connecting-IP" = "" →
      r.Header.Get "X-Forwarded-For" = "" →
      (r.Header.Get "X-Real-IP" ≠ "" →
        realIP r = some (TrimSpace (r.Header.Get "X-Real-IP"))) ∧
      (r.Header.Get "X-Real-IP" = "" →
        (∀ host port, SplitHostPort r.RemoteAddr = some (host, port) →
          realIP r = some host) ∧
        (SplitHostPort r.RemoteAddr = none → realIP r = some "") ∧
        (∀ h p : List Char, (∀ c ∈ h, c ≠ ':' ∧ c ≠ '[' ∧ c ≠ ']') →
          (∀ c ∈ p, c ≠ ':' ∧ c ≠ '[' ∧ c ≠ ']') →
          r.RemoteAddr = ⟨h ++ ':' :: p⟩ → realIP r = some ⟨h⟩))) := by
  refine ⟨realIP_isSome, ?_⟩
  intro r h1 h2
  refine ⟨?_, ?_⟩
  · intro h3
    unfold realIP
    rw [if_neg (by simp [h1]), if_neg (by simp [h2]), if_pos h3]
  · intro h3
    have hr : realIP r = some (peerHost r) := by
      unfold realIP peerHost
      rw [if_neg (by simp [h1]), if_neg (by simp [h2]), if_neg (by simp [h3])]
      cases SplitHostPort r.RemoteAddr with
      | none => rfl
      | some hp => rfl
    refine ⟨?_, ?_, ?_⟩
    · intro host port hs
      rw [hr, peerHost, hs]
    · intro hs
      rw [hr, peerHost, hs]
    · intro h p hh hp hra
      rw [hr, peerHost, hra, SplitHostPort_plain h p hh hp]

theorem realIP_total_fallback_witness :
    realIP reqDirect = some "192.0.2.10" ∧ realIP reqSecret = some "203.0.113.9" :=
  ⟨((realIP_total_fallback.2 reqDirect (by decide) (by decide)).2 (by decide)).2.2
      "192.0.2.10".data "52044".data (by decide) (by decide) (by decide),
    ((realIP_total_fallback.2 reqSecret (by decide) (by decide)).1 (by decide)).trans
      (by decide)⟩

/-! ## `ipAllowed`: the rule loop as a disjunction -/

theorem ipAllowedLoop_append (c : String) (ip : IP) (rs1 rs2 : List String) :
    ipAllowedLoop c ip (rs1 ++ rs2) = (ipAllowedLoop c ip rs1 || ipAllowedLoop c ip rs2) := by
  rw [Bool.eq_iff_iff, Bool.or_eq_true, ipAllowedLoop_eq_true_iff, ipAllowedLoop_eq_true_iff,
    ipAllowedLoop_eq_true_iff]
  constructor
  · rintro ⟨r, hr, hm⟩
    rcases List.mem_append.mp hr with h | h
    · exact Or.inl ⟨r, h, hm⟩
    · exact Or.inr ⟨r, h, hm⟩
  · rintro (⟨r, hr, hm⟩ | ⟨r, hr, hm⟩)
    · exact ⟨r, List.mem_append_left _ hr, hm⟩
    · exact ⟨r, List.mem_append_right _ hr, hm⟩

theorem ipAllowedLoop_skip (c : String) (ip : IP) (r : String) (hne : TrimSpace r ≠ c)
    (hcidr : ParseCIDR (TrimSpace r) = none) : ipAllowedLoop c ip [r] = false := by
  simp [ipAllowedLoop, hne, hcidr]

theorem dropWhile_of_head (f : Char → Bool) (l : List Char)
    (h : ∀ c, l.head? = some c → f c = false) : l.dropWhile f = l := by
  cases l with
  | nil => rfl
  | cons x rest => simp [List.dropWhile_cons, h x rfl]

theorem head_dropWhile_false (f : Char → Bool) (l : List Char) (c : Char)
    (h : (l.dropWhile f).head? = some c) : f c = false := by
  cases hd : l.dropWhile f with
  | nil => rw [hd] at h; simp at h
  | cons x rest =>
    rw [hd] at h
    simp only [List.head?_cons, Option.some.injEq] at h
    subst h
    have := List.head_dropWhile_not f l (by rw [hd]; simp)
    simpa [hd] using this

theorem trim_idempotent (f : Char → Bool) (l : List Char) :
    trimRightFunc f (trimLeftFunc f (trimRightFunc f (trimLeftFunc f l))) =
      trimRightFunc f (trimLeftFunc f l) := by
  have hR : ∀ x : List Char, trimRightFunc f x = x.rdropWhile f := fun _ => rfl
  have hleft : trimLeftFunc f (trimRightFunc f (trimLeftFunc f l)) =
      trimRightFunc f (trimLeftFunc f l) := by
    unfold trimLeftFunc
    apply dropWhile_of_head
    intro c hc
    rw [hR] at hc
    obtain ⟨t, ht⟩ := List.rdropWhile_prefix f (l := l.dropWhile f)
    apply head_dropWhile_false f l c
    rw [← ht]
    cases hx : List.rdropWhile f (List.dropWhile f l) with
    | nil => rw [hx] at hc; simp at hc
    | cons y ys => rw [hx] at hc; simpa using hc
  rw [hleft, hR, hR, List.rdropWhile_idempotent]

theorem TrimSpace_idempotent (s : String) : TrimSpace (TrimSpace s) = TrimSpace s := by
  unfold TrimSpace
  exact congrArg String.mk (trim_idempotent isSpace s.data)

theorem ipAllowedLoop_map_TrimSpace (c : String) (ip : IP) (rs : List String) :
    ipAllowedLoop c ip (rs.map TrimSpace) = ipAllowedLoop c ip rs := by
  induction rs with
  | nil => rfl
  | cons r rest ih =>
    simp only [List.map_cons, ipAllowedLoop, TrimSpace_idempotent, ih]

/-! ## Claims C15 to C18 -/

/-- C15, as stated, fails: inserted into the empty rule list, a rule that is
neither equal to the client address nor a CIDR range turns "permit" into "deny". -/
theorem ipAllowed_insert_into_nil :
    (∃ ip, ParseIP "10.2.3.4" = some ip) ∧ TrimSpace "no rule" ≠ "10.2.3.4" ∧
    ParseCIDR (TrimSpace "no rule") = none ∧
    ipAllowed "10.2.3.4" ([] ++ ["no rule"] ++ []) = false ∧
    ipAllowed "10.2.3.4" ([] ++ []) = true := by
  refine ⟨⟨[0, 0, 0, 0, 0, 0, 0, 0, 0, 0, 255, 255, 10, 2, 3, 4], by decide⟩, by decide,
    by decide, by decide, by decide⟩

/-- C15, amended: for every client address `c` that parses as an IP address, every
rule `r` that after trimming is neither textually equal to `c` nor a valid CIDR
range, and all rule lists `pre`, `post` that are not both empty,
`ipAllowed c (pre ++ [r] ++ post) = ipAllowed c (pre ++ post)`: among other rules
such a rule is skipped. -/
theorem ipAllowed_insert_unparseable_rule (c : String) (ip : IP) (r : String)
    (pre post : List String) (hc : ParseIP c = some ip) (hne : TrimSpace r ≠ c)
    (hcidr : ParseCIDR (TrimSpace r) = none) (hrs : pre ++ post ≠ []) :
    ipAllowed c (pre ++ [r] ++ post) = ipAllowed c (pre ++ post) := by
  rw [ipAllowed_eq_loop c ip _ hc (by simp), ipAllowed_eq_loop c ip _ hc hrs,
    ipAllowedLoop_append, ipAllowedLoop_append, ipAllowedLoop_append,
    ipAllowedLoop_skip c ip r hne hcidr, Bool.or_false]

theorem ipAllowed_insert_unparseable_rule_witness :
    ipAllowed "10.2.3.4" (["192.168.0.0/16"] ++ ["no rule"] ++ ["10.0.0.0/8"]) =
      ipAllowed "10.2.3.4" (["192.168.0.0/16"] ++ ["10.0.0.0/8"]) :=
  ipAllowed_insert_unparseable_rule "10.2.3.4"
    [0, 0, 0, 0, 0, 0, 0, 0, 0, 0, 255, 255, 10, 2, 3, 4] "no rule"
    ["192.168.0.0/16"] ["10.0.0.0/8"] (by decide) (by decide) (by decide) (by decide)

/-- C16: literal matching is textual, not numeric: `::1` and `0:0:0:0:0:0:0:1`
parse to the same IPv6 address, the second is not a CIDR range, and client `::1`
with the single rule `0:0:0:0:0:0:0:1` is denied. -/
theorem ipAllowed_literal_textual :
    ParseIP "::1" = some [0, 0, 0, 0, 0, 0, 0, 0, 0, 0, 0, 0, 0, 0, 0, 1] ∧
    ParseIP "0:0:0:0:0:0:0:1" = some [0, 0, 0, 0, 0, 0, 0, 0, 0, 0, 0, 0, 0, 0, 0, 1] ∧
    ParseCIDR "0:0:0:0:0:0:0:1" = none ∧
    ipAllowed "::1" ["0:0:0:0:0:0:0:1"] = false ∧
    ∃ (c r : String) (ip : IP), ParseIP c = some ip ∧ ParseIP r = some ip ∧ c ≠ r ∧
      ParseCIDR (TrimSpace r) = none ∧ ipAllowed c [r] = false := by
  refine ⟨by decide, by decide, by decide, by decide,
    "::1", "0:0:0:0:0:0:0:1", [0, 0, 0, 0, 0, 0, 0, 0, 0, 0, 0, 0, 0, 0, 0, 1],
    by decide, by decide, by decide, by decide, by decide⟩

/-- C17: for every client address string `c` and rule list `rs`,
`ipAllowed c rs = ipAllowed c (rs.map TrimSpace)`: white space around a rule affects
neither the literal comparison nor the CIDR parse, while the client address is not
trimmed (a padded client address is denied where the bare one is permitted). -/
theorem ipAllowed_map_TrimSpace :
    (∀ (c : String) (rs : List String), ipAllowed c rs = ipAllowed c (rs.map TrimSpace)) ∧
    ipAllowed "10.2.3.4" [" 10.2.3.4 "] = true ∧
    ipAllowed "10.2.3.4" ["\t10.0.0.0/8\n"] = true ∧
    ipAllowed " 10.2.3.4 " ["10.2.3.4"] = false ∧
    ipAllowed " 10.2.3.4 " ["10.0.0.0/8"] = false := by
  refine ⟨?_, by decide, by decide, by decide, by decide⟩
  intro c rs
  cases hc : ParseIP c with
  | none =>
    rw [ipAllowed_unparseable c _ hc, ipAllowed_unparseable c _ hc]
    cases rs <;> rfl
  | some ip =>
    cases rs with
    | nil => rfl
    | cons r rest =>
      rw [ipAllowed_eq_loop c ip _ hc (by simp), ipAllowed_eq_loop c ip _ hc (by simp),
        ipAllowedLoop_map_TrimSpace]

/-- C18: for every client address string `c` and rule lists `rs`, `extra` with `rs`
non-empty, `ipAllowed c rs = true` implies `ipAllowed c (rs ++ extra) = true` and
`ipAllowed c (extra ++ rs) = true`. -/
theorem ipAllowed_mono (c : String) (rs extra : List String) (hrs : rs ≠ [])
    (h : ipAllowed c rs = true) :
    ipAllowed c (rs ++ extra) = true ∧ ipAllowed c (extra ++ rs) = true := by
  cases hc : ParseIP c with
  | none =>
    rw [ipAllowed_unparseable c rs hc] at h
    cases rs with
    | nil => exact absurd rfl hrs
    | cons r rest => simp at h
  | some ip =>
    rw [ipAllowed_eq_loop c ip rs hc hrs] at h
    rw [ipAllowed_eq_loop c ip _ hc (by simp [hrs]), ipAllowed_eq_loop c ip _ hc (by simp [hrs]),
      ipAllowedLoop_append, ipAllowedLoop_append, h]
    simp

theorem ipAllowed_mono_witness :
    (ipAllowed "10.2.3.4" (["10.0.0.0/8"] ++ ["192.168.0.0/16", "bad"]) = true ∧
      ipAllowed "10.2.3.4" (["192.168.0.0/16", "bad"] ++ ["10.0.0.0/8"]) = true) ∧
    ipAllowed "10.2.3.4" [] = true ∧ ipAllowed "10.2.3.4" ([] ++ ["192.168.0.0/16"]) = false :=
  ⟨ipAllowed_mono "10.2.3.4" ["10.0.0.0/8"] ["192.168.0.0/16", "bad"] (by decide) (by decide),
    by decide, by decide⟩

/-! ## `init`: the display-defaulting pass -/

theorem githubDisplay_ne_empty (repo : String) : githubDisplay repo ≠ "" := by
  intro h
  have h2 := congrArg String.length h
  simp only [githubDisplay, String.length_append] at h2
  have h3 : " ".length = 1 := by decide
  have h4 : "".length = 0 := by decide
  omega

theorem initEntry_spec (e : Entry) :
    (initEntry e).Repo = e.Repo ∧ (initEntry e).Allows = e.Allows ∧
    (e.Display ≠ "" → (initEntry e).Display = e.Display) ∧
    (e.Display = "" → Contains e.Repo "github.com" = false → (initEntry e).Display = "") ∧
    (e.Display = "" → Contains e.Repo "github.com" = true →
      (initEntry e).Display = githubDisplay e.Repo) := by
  unfold initEntry
  refine ⟨?_, ?_, ?_, ?_, ?_⟩
  · split_ifs <;> rfl
  · split_ifs <;> rfl
  · intro h
    rw [if_pos h]
  · intro h hc
    rw [if_neg (by simp [h]), if_neg (by simp [hc])]
    exact h
  · intro h hc
    rw [if_neg (by simp [h]), if_pos hc]
    rfl

theorem initEntry_of_display (e : Entry) (h : e.Display ≠ "") : initEntry e = e := by
  unfold initEntry
  rw [if_pos h]

theorem initEntry_idempotent (e : Entry) : initEntry (initEntry e) = initEntry e := by
  obtain ⟨_, _, _, _, h3⟩ := initEntry_spec e
  by_cases hd : e.Display = ""
  · cases hc : Contains e.Repo "github.com" with
    | false =>
      have : initEntry e = e := by
        unfold initEntry
        rw [if_neg (by simp [hd]), if_neg (by simp [hc])]
      rw [this, this]
    | true =>
      apply initEntry_of_display
      rw [h3 hd hc]
      exact githubDisplay_ne_empty _
  · rw [initEntry_of_display e hd, initEntry_of_display e hd]

/-! ## Claim C19 -/

/-- C19: the display-defaulting pass of `init` keeps the key set and every entry's
`Repo` and `Allows`, leaves a non-empty `Display` unchanged, leaves an empty
`Display` empty when `Repo` does not contain `github.com`, and otherwise sets it to
`<Repo> <Repo>/tree/master{/dir} <Repo>/blob/master{/dir}/{file}#L{line}`; applying
the pass twice gives the same mapping as applying it once. -/
theorem initDisplay_spec (m : Mapping) :
    (∀ path, (initDisplay m path).isSome = (m path).isSome) ∧
    (∀ path e, m path = some e →
      ∃ e2, initDisplay m path = some e2 ∧ e2.Repo = e.Repo ∧ e2.Allows = e.Allows ∧
        (e.Display ≠ "" → e2.Display = e.Display) ∧
        (e.Display = "" → Contains e.Repo "github.com" = false → e2.Display = "") ∧
        (e.Display = "" → Contains e.Repo "github.com" = true →
          e2.Display = e.Repo ++ " " ++ e.Repo ++ "/tree/master\x7b/dir\x7d " ++ e.Repo ++
            "/blob/master\x7b/dir\x7d/\x7bfile\x7d#L\x7bline\x7d")) ∧
    initDisplay (initDisplay m) = initDisplay m := by
  refine ⟨?_, ?_, ?_⟩
  · intro path
    simp [initDisplay]
  · intro path e he
    exact ⟨initEntry e, by simp [initDisplay, he], initEntry_spec e⟩
  · funext path
    simp only [initDisplay, Option.map_map]
    cases m path with
    | none => rfl
    | some e => simp [initEntry_idempotent]

theorem initDisplay_spec_witness :
    (∃ e2, initDisplay loadedMapping "/pkg/foo" = some e2 ∧
      e2.Repo = "https://github.com/acme/foo" ∧ e2.Allows = ["10.0.0.0/8"] ∧
      e2.Display = "https://github.com/acme/foo https://github.com/acme/foo/tree/master\x7b/dir\x7d https://github.com/acme/foo/blob/master\x7b/dir\x7d/\x7bfile\x7d#L\x7bline\x7d") ∧
    initDisplay loadedMapping "/pkg/bar" = loadedMapping "/pkg/bar" ∧
    initDisplay loadedMapping "/pkg/baz" = loadedMapping "/pkg/baz" ∧
    initDisplay loadedMapping "/pkg/qux" = none := by
  refine ⟨?_, by decide, by decide, by decide⟩
  obtain ⟨e2, h1, h2, h3, _, _, h6⟩ := (initDisplay_spec loadedMapping).2.1 "/pkg/foo"
    { Repo := "https://github.com/acme/foo", Display := "", Allows := ["10.0.0.0/8"] }
    (by decide)
  exact ⟨e2, h1, h2, h3, (h6 (by decide) (by decide)).trans (by decide)⟩

end Govanityurls
